import Mathlib

/-!
Verification of the configuration-tree model of the miracle-extension
repository (`src/treeView.ts`, class `IniTreeDataProvider`).

The TypeScript source manipulates a dynamically-typed tree obtained from
`ini.parse` and persists it with `ini.stringify`.  We embed:

* JavaScript strings as `JStr := List Char`;
* the configuration tree as the mutual inductives `Node` / `Entries`
  (a JS object is an insertion-ordered association list, a JS string a leaf);
* the operations `getSectionData`, `updateIniValue`, `addDependency`,
  `addLibrary` directly from `src/treeView.ts`, including JavaScript
  truthiness and the behaviour of property access on string primitives;
* the persisted INI format.  The `ini` npm package itself is not part of
  the repository sources, so `iniStringify` / `iniParse` are modelled from
  the specification of the persisted format (bracketed `[a.b]` headers,
  `key = value` lines, trim on parse, line oriented).  The backing file is
  represented by its list of lines.
-/

namespace Miracle

/-- JavaScript strings, modelled as sequences of characters. -/
abbrev JStr := List Char

/-- Embed a Lean string literal as a `JStr`. -/
def js (s : String) : JStr := s.data

/-- Whitespace recognised by `String.prototype.trim` (ASCII part). -/
def wsChar (c : Char) : Bool := c = ' ' || c = '\t' || c = '\n' || c = '\r'

/-- Strip leading whitespace (left part of `trim`). -/
def ltrim (s : JStr) : JStr := s.dropWhile wsChar

/-- Strip trailing whitespace (right part of `trim`). -/
def rtrim (s : JStr) : JStr := (ltrim s.reverse).reverse

/-- JavaScript `String.prototype.trim`: strip whitespace at both ends. -/
def trim (s : JStr) : JStr := rtrim (ltrim s)

/-- Auxiliary loop of `jsSplit`: `acc` holds the current piece reversed. -/
def jsSplitGo (sep : Char) : JStr → JStr → List JStr
  | [], acc => [acc.reverse]
  | c :: cs, acc =>
      if c = sep then acc.reverse :: jsSplitGo sep cs []
      else jsSplitGo sep cs (c :: acc)

/-- JavaScript `String.prototype.split` with a one-character separator:
`''.split(sep) = ['']`, `'a..b'.split('.') = ['a','','b']`. -/
def jsSplit (sep : Char) (s : JStr) : List JStr := jsSplitGo sep s []

/-- JavaScript `Array.prototype.join` with a one-character separator. -/
def joinWith (sep : Char) : List JStr → JStr
  | [] => []
  | [x] => x
  | x :: y :: xs => x ++ sep :: joinWith sep (y :: xs)

/-- Does the string denote a canonical array index (`'0'`, `'7'`, `'42'`, …)?
JavaScript exposes the characters of a string primitive under exactly these
property names. -/
def canonicalIndex (s : JStr) : Option Nat :=
  if s = [] then none
  else if s.all (fun c => c.isDigit) then
    if s.head? = some '0' && s ≠ ['0'] then none
    else some (s.foldl (fun n c => n * 10 + (c.toNat - 48)) 0)
  else none

mutual
/-- A node of the configuration tree: a JS string value or a JS object. -/
inductive Node where
  | leaf : JStr → Node
  | branch : Entries → Node
  deriving Repr
/-- The properties of a JS object, in insertion order. -/
inductive Entries where
  | nil : Entries
  | cons : JStr → Node → Entries → Entries
  deriving Repr
end

mutual
/-- Decidable structural equality on nodes. -/
def Node.decEq : (a b : Node) → Decidable (a = b)
  | .leaf x, .leaf y =>
      if h : x = y then .isTrue (by rw [h]) else .isFalse (by simp [h])
  | .leaf _, .branch _ => .isFalse (by simp)
  | .branch _, .leaf _ => .isFalse (by simp)
  | .branch a, .branch b =>
      match Entries.decEq a b with
      | .isTrue h => .isTrue (by rw [h])
      | .isFalse h => .isFalse (by simp [h])
/-- Decidable structural equality on entry lists. -/
def Entries.decEq : (a b : Entries) → Decidable (a = b)
  | .nil, .nil => .isTrue rfl
  | .nil, .cons _ _ _ => .isFalse (by simp)
  | .cons _ _ _, .nil => .isFalse (by simp)
  | .cons k n r, .cons k' n' r' =>
      if hk : k = k' then
        match Node.decEq n n' with
        | .isTrue hn =>
            match Entries.decEq r r' with
            | .isTrue hr => .isTrue (by rw [hk, hn, hr])
            | .isFalse hr => .isFalse (by simp [hr])
        | .isFalse hn => .isFalse (by simp [hn])
      else .isFalse (by simp [hk])
end

instance : DecidableEq Node := Node.decEq

instance : DecidableEq Entries := Entries.decEq

/-- Property lookup on a JS object (`obj[key]`), first match in insertion
order; `none` models `undefined`. -/
def lookupE : Entries → JStr → Option Node
  | .nil, _ => none
  | .cons k n r, key => if k = key then some n else lookupE r key

/-- Property assignment on a JS object (`obj[key] = v`): an existing key
keeps its position, a new key is appended at the end. -/
def setK : Entries → JStr → Node → Entries
  | .nil, key, v => .cons key v .nil
  | .cons k n r, key, v =>
      if k = key then .cons k v r else .cons k n (setK r key v)

/-- Concatenation of entry lists. -/
def Entries.app : Entries → Entries → Entries
  | .nil, b => b
  | .cons k n r, b => .cons k n (r.app b)

/-- JavaScript truthiness of a tree value: objects are truthy, strings are
truthy iff non-empty. -/
def truthy : Node → Bool
  | .leaf v => v ≠ []
  | .branch _ => true

/-- Property read `data[part]` as performed by `getSectionData`.  On an
object this is ordinary lookup.  On a string primitive JavaScript exposes
the characters under their index names (`'hi'['0'] = 'h'`), so indexing a
`leaf` can succeed; other own properties are absent.  (Inherited
`String.prototype` members are not modelled.) -/
def jsGet : Node → JStr → Option Node
  | .branch es, part => lookupE es part
  | .leaf s, part =>
      match canonicalIndex part with
      | some i => if h : i < s.length then some (.leaf [s.get ⟨i, h⟩]) else none
      | none => none

/-- The walk of `getSectionData`: `for (const part of parts) { if (data &&
data[part] !== undefined) data = data[part]; else return undefined; }`. -/
def sectionWalk : Node → List JStr → Option Node
  | data, [] => some data
  | data, part :: rest =>
      if truthy data then
        match jsGet data part with
        | some d => sectionWalk d rest
        | none => none
      else none

/-- Source `getSectionData(sectionPath)` of `src/treeView.ts`: split the dotted
path and walk it from the root. -/
def getSectionData (root : Entries) (sectionPath : JStr) : Option Node :=
  sectionWalk (.branch root) (jsSplit '.' sectionPath)

/-! ### The persisted INI text

Modelled from the spec: the `ini` npm package (`ini.parse` /
`ini.stringify`, used by `loadIniFile` / `updateIniFile`) is an external
dependency whose code is not part of the repository, so the textual format
is taken from the specification: a line-oriented format of bracketed
`[name]` / `[parent.child]` section headers followed by `key = value`
lines, values trimmed on parse.  The backing file is represented as its
list of lines. -/

/-- One serialized section: its dotted path (root = `[]`) and its direct
key/value pairs. -/
abbrev Sec := List JStr × List (JStr × JStr)

/-- The direct string-valued properties of an object, in order. -/
def directLeaves : Entries → List (JStr × JStr)
  | .nil => []
  | .cons k (.leaf v) r => (k, v) :: directLeaves r
  | .cons _ (.branch _) r => directLeaves r

mutual
/-- Sections contributed by one child node, depth first. -/
def sectionsOfNode (path : List JStr) : Node → List Sec
  | .leaf _ => []
  | .branch es => (path, directLeaves es) :: sectionsOfEntries path es
/-- Sections contributed by the children of an object, in order. -/
def sectionsOfEntries (path : List JStr) : Entries → List Sec
  | .nil => []
  | .cons k n r => sectionsOfNode (path ++ [k]) n ++ sectionsOfEntries path r
end

/-- All sections of a tree: the root section first, then the subtree
sections depth first. -/
def allSections (es : Entries) : List Sec :=
  ([], directLeaves es) :: sectionsOfEntries [] es

/-- The bracketed header line of a compound section: one literal `.` per
nesting level, no escaping. -/
def headerLine (path : List JStr) : JStr :=
  '[' :: joinWith '.' path ++ [']']

/-- A `key = value` line. -/
def kvLine (k v : JStr) : JStr := k ++ ' ' :: '=' :: ' ' :: v

/-- Render one section: a header (except for the root section) followed by
its `key = value` lines. -/
def renderSec : Sec → List JStr
  | ([], kvs) => kvs.map (fun kv => kvLine kv.1 kv.2)
  | (path, kvs) => headerLine path :: kvs.map (fun kv => kvLine kv.1 kv.2)

/-- Modelled from the spec: the serializer (`ini.stringify` as invoked by
`updateIniFile`), rendering sections depth first, each section's direct
values before its subsections. -/
def iniStringify (es : Entries) : List JStr :=
  (allSections es).flatMap renderSec

/-- Recognise a section header line and extract the text between the
brackets. -/
def headerContent : JStr → Option JStr
  | [] => none
  | c :: rest =>
      if c = '[' then
        if rest.getLast? = some ']' then some rest.dropLast else none
      else none

/-- Break a line at its first `=`, yielding the raw key and value parts. -/
def breakAtEq : JStr → Option (JStr × JStr)
  | [] => none
  | c :: cs =>
      if c = '=' then some ([], cs)
      else (breakAtEq cs).map (fun p => (c :: p.1, p.2))

/-- A line consisting only of whitespace. -/
def isBlank (l : JStr) : Bool := l.all wsChar

/-- Create every object along a dotted path, appending missing keys;
an existing object on the path is descended into, anything else is
replaced by a fresh object. -/
def ensurePath : Entries → List JStr → Entries
  | es, [] => es
  | es, p :: rest =>
      match lookupE es p with
      | some (.branch ces) => setK es p (.branch (ensurePath ces rest))
      | _ => setK es p (.branch (ensurePath .nil rest))

/-- Set a string value at `path` / `key`, creating objects along the path
as needed. -/
def setLeafAt (es : Entries) : List JStr → JStr → JStr → Entries
  | [], key, v => setK es key (.leaf v)
  | p :: rest, key, v =>
      match lookupE es p with
      | some (.branch ces) => setK es p (.branch (setLeafAt ces rest key v))
      | _ => setK es p (.branch (setLeafAt .nil rest key v))

/-- Parser state: the tree built so far and the current section path. -/
abbrev ParseSt := Entries × List JStr

/-- Consume one line: blank lines are skipped, a `[...]` header selects
(and creates) the section named by its dot-separated content, and a
`key = value` line stores the trimmed value under the trimmed key in the
current section. -/
def parseLine (st : ParseSt) (l : JStr) : ParseSt :=
  if isBlank l then st
  else
    match headerContent l with
    | some content =>
        let path := jsSplit '.' content
        (ensurePath st.1 path, path)
    | none =>
        match breakAtEq l with
        | some kv => (setLeafAt st.1 st.2 (trim kv.1) (trim kv.2), st.2)
        | none => st

/-- Modelled from the spec: the parser (`ini.parse` as invoked by
`loadIniFile`), folding the lines of the backing file into a tree. -/
def iniParse (lines : List JStr) : Entries :=
  (lines.foldl parseLine (.nil, [])).1

/-! ### The store and its mutating operations (`src/treeView.ts`) -/

/-- The provider's state: the in-memory tree (`iniData`) and the backing
file's contents (`config.ini`, as its list of lines). -/
structure Store where
  tree : Entries
  text : List JStr
  deriving Repr, DecidableEq

/-- Source `updateIniFile()`: serialize the whole tree and overwrite the backing
file with it. -/
def updateIniFile (t : Entries) : Store :=
  { tree := t, text := iniStringify t }

/-- Rewrite the node an in-place JavaScript mutation reaches through a
resolved reference: the walk follows object properties; reaching the end
applies the mutation, while a string primitive on the way (or a missing
key) leaves the tree untouched, since the mutation then happens on a
detached temporary. -/
def mutateAt : Entries → List JStr → (Node → Node) → Entries
  | es, [], _ => es
  | es, [p], f =>
      match lookupE es p with
      | some n => setK es p (f n)
      | none => es
  | es, p :: q :: rest, f =>
      match lookupE es p with
      | some (.branch ces) => setK es p (.branch (mutateAt ces (q :: rest) f))
      | _ => es

/-- Outcome of `updateIniValue`. -/
inductive UpdateResult where
  | sectionNotFound : UpdateResult
  | updated : UpdateResult
  deriving Repr, DecidableEq

/-- Assignment `targetData[key] = value` on a resolved node: on an object the
property is set; on a string primitive the assignment has no effect on the
tree (property assignment to a primitive does not stick). -/
def assignKey (key v : JStr) : Node → Node
  | .branch b => .branch (setK b key (.leaf v))
  | .leaf w => .leaf w

/-- Source `updateIniValue(item, value)` of `src/treeView.ts`: resolve
`item.section`, report `Section not found` if the result is absent or
falsy, otherwise assign `targetData[item.label] = value` and persist the
whole tree. -/
def updateIniValue (st : Store) (sec label value : JStr) :
    UpdateResult × Store :=
  match getSectionData st.tree sec with
  | none => (.sectionNotFound, st)
  | some d =>
      if truthy d then
        let t := mutateAt st.tree (jsSplit '.' sec) (assignKey label value)
        (.updated, updateIniFile t)
      else (.sectionNotFound, st)

/-- Outcome of `addDependency`. -/
inductive AddDepResult where
  | sectionNotFound : AddDepResult
  | added : AddDepResult
  | alreadyExists : AddDepResult
  | typeError : AddDepResult
  deriving Repr, DecidableEq

/-- The key of the dependency list. -/
def depsKey : JStr := js "dependencies"

/-- Source expression `currentDeps ? currentDeps.split(',').map(dep => dep.trim()) : []`. -/
def depsArrayOf (v : JStr) : List JStr :=
  if v = [] then [] else (jsSplit ',' v).map trim

/-- The shared tail of `addDependency`: split, trim, test membership, and
either append-and-persist or report `already exists`. -/
def addDependencyToList (st : Store) (sec v dependency : JStr) :
    AddDepResult × Store :=
  let depsArray := depsArrayOf v
  if dependency ∈ depsArray then (.alreadyExists, st)
  else
    let newDeps := joinWith ',' (depsArray ++ [dependency])
    let t := mutateAt st.tree (jsSplit '.' sec)
      (assignKey depsKey newDeps)
    (.added, updateIniFile t)

/-- Source `addDependency(item, dependency)` of `src/treeView.ts`.  The section
is `item.section || item.label`.  A missing or falsy target reports
`Section not found`; a string target silently rewrites the unchanged tree
(the assignment does not stick); a `dependencies` subobject makes
`currentDeps.split` throw a `TypeError` before any mutation; otherwise the
dependency is appended unless already present in the trimmed list. -/
def addDependency (st : Store) (sectionArg labelArg dependency : JStr) :
    AddDepResult × Store :=
  let sec := if sectionArg ≠ [] then sectionArg else labelArg
  if sec = [] then (.sectionNotFound, st)
  else
    match getSectionData st.tree sec with
    | none => (.sectionNotFound, st)
    | some d =>
        if truthy d then
          match d with
          | .leaf _ => (.added, updateIniFile st.tree)
          | .branch b =>
              match lookupE b depsKey with
              | some (.branch _) => (.typeError, st)
              | some (.leaf v) =>
                  addDependencyToList st sec v dependency
              | none => addDependencyToList st sec [] dependency
        else (.sectionNotFound, st)

/-! ### `addLibrary` (`src/treeView.ts`) -/

/-- Source `libraryName.replace(/^\.?\/+/, '')`: strip one optional leading `.`
followed by at least one `/`. -/
def stripRelPrefix (s : JStr) : JStr :=
  match s with
  | '.' :: rest =>
      if rest.head? = some '/' then rest.dropWhile (fun c => c = '/') else s
  | '/' :: _ => s.dropWhile (fun c => c = '/')
  | _ => s

/-- Source `.replace(/[\\/]/g, '')`: delete every slash and backslash. -/
def stripSlashes (s : JStr) : JStr :=
  s.filter (fun c => !(c = '/' || c = '\\'))

/-- The sanitization pipeline of `addLibrary`: strip a leading relative
prefix, delete slashes and backslashes, then trim. -/
def sanitizeLibraryName (s : JStr) : JStr :=
  trim (stripSlashes (stripRelPrefix s))

/-- Pattern `/^[A-Za-z0-9_-]+$/`: letters, digits, underscore and hyphen only,
at least one character. -/
def validLibraryName (s : JStr) : Bool :=
  s ≠ [] && s.all (fun c => c.isAlpha || c.isDigit || c = '_' || c = '-')

/-- The key of the `library` section. -/
def libraryKey : JStr := js "library"

/-- Source `if (!this.iniData['library']) this.iniData['library'] = {}`: a missing
or falsy (empty string) `library` property is replaced by an empty object;
note that this runs before the duplicate check and before the setup
script. -/
def ensureLibrary (t : Entries) : Entries :=
  match lookupE t libraryKey with
  | some (.branch _) => t
  | some (.leaf v) => if v = [] then setK t libraryKey (.branch .nil) else t
  | none => setK t libraryKey (.branch .nil)

/-- Source `if (this.iniData['library'][libraryName])`: truthiness of the property
read, including string indexing when `library` is a non-empty string. -/
def libraryExists (t : Entries) (name : JStr) : Bool :=
  match lookupE t libraryKey with
  | some d =>
      match jsGet d name with
      | some n => truthy n
      | none => false
  | none => false

/-- The object stored for a new library:
`{ path: libraryName, type: libType, dependencies: '' }`. -/
def newLibraryEntry (name libType : JStr) : Node :=
  .branch (.cons (js "path") (.leaf name)
    (.cons (js "type") (.leaf libType)
      (.cons depsKey (.leaf []) .nil)))

/-- Assignment `this.iniData['library'][libraryName] = {...}`: set the new library
object under `library`; if `library` is a (non-empty) string primitive the
assignment does not stick and the tree is unchanged. -/
def insertLibrary (t : Entries) (name libType : JStr) : Entries :=
  match lookupE t libraryKey with
  | some (.branch b) =>
      setK t libraryKey (.branch (setK b name (newLibraryEntry name libType)))
  | _ => t

/-- Outcome of `addLibrary`. -/
inductive AddLibResult where
  | canceled : AddLibResult
  | invalidName : AddLibResult
  | duplicateLibrary : AddLibResult
  | setupFailed : JStr → AddLibResult
  | success : AddLibResult
  deriving Repr, DecidableEq

/-- Source `addLibrary()` of `src/treeView.ts`.  `nameInput` and `libTypeInput`
are the user's prompt answers (`none` / empty = cancel); the setup script
(`runSetupScript`, an external process) is represented by its outcome:
`setupOk = false` makes the awaited promise reject with diagnostic
`setupDiag`, which the surrounding `try`/`catch` reports.  The optional
follow-up prompt that adds the new library as a dependency is answered
`No`.  Control flow in order: cancel check, sanitize, validate, ensure
`library` exists (a tree mutation!), duplicate check, type prompt, setup
script, insert, persist. -/
def addLibrary (st : Store) (nameInput : Option JStr)
    (libTypeInput : Option JStr) (setupOk : Bool) (setupDiag : JStr) :
    AddLibResult × Store :=
  match nameInput with
  | none => (.canceled, st)
  | some raw =>
      if raw = [] then (.canceled, st)
      else
        let name := sanitizeLibraryName raw
        if !validLibraryName name then (.invalidName, st)
        else
          let t := ensureLibrary st.tree
          if libraryExists t name then (.duplicateLibrary, { st with tree := t })
          else
            match libTypeInput with
            | none => (.canceled, { st with tree := t })
            | some libType =>
                if !setupOk then (.setupFailed setupDiag, { st with tree := t })
                else (.success, updateIniFile (insertLibrary t name libType))

/-! ### `getChildren` and the section paths it constructs -/

/-- The section path `getChildren` gives a child item: a subsection gets
`element.section ? element.section + '.' + key : key`; a plain key keeps
the parent's section. -/
def childSection (parentSection key : JStr) : Node → JStr
  | .branch _ => if parentSection ≠ [] then parentSection ++ '.' :: key else key
  | .leaf _ => parentSection

/-- The tree items reachable by walking down from the root through
`getChildren`, as triples (label, data, section path).  Root items carry
their own key as section path; child items are built by `childSection`. -/
inductive ReachableItem (root : Entries) : JStr → Node → JStr → Prop where
  | top : ∀ k n, lookupE root k = some n → ReachableItem root k n k
  | child : ∀ pl pes ps k n, ReachableItem root pl (.branch pes) ps →
      lookupE pes k = some n → ReachableItem root k n (childSection ps k n)

/-- Keys suitable for dotted addressing: every key in the tree is non-empty
and contains no `.`. -/
def pathKeysOkB : Entries → Bool
  | .nil => true
  | .cons k (.leaf _) r =>
      decide (k ≠ []) && decide ('.' ∉ k) && pathKeysOkB r
  | .cons k (.branch ces) r =>
      decide (k ≠ []) && decide ('.' ∉ k) && pathKeysOkB ces && pathKeysOkB r

/-! ### Example trees and stores used by counterexamples and witnesses -/

/-- The entry list `{ path: 'foo', type: 'static', dependencies: '' }`. -/
def fooEntries : Entries :=
  .cons (js "path") (.leaf (js "foo"))
    (.cons (js "type") (.leaf (js "static"))
      (.cons depsKey (.leaf []) .nil))

/-- A tree holding one library: `{ library: { foo: {...} } }`. -/
def demoLib : Entries :=
  .cons (js "library") (.branch (.cons (js "foo") (.branch fooEntries) .nil))
    .nil

/-- A tree whose top-level key contains a dot. -/
def exDotTree : Entries :=
  .cons (js "a.b") (.branch (.cons (js "k") (.leaf (js "v")) .nil)) .nil

/-- A store holding an empty `application` section. -/
def exAppStore : Store :=
  { tree := .cons (js "application") (.branch .nil) .nil, text := [] }

/-- A store whose tree maps `a` to the empty string. -/
def exEmptyLeafStore : Store :=
  { tree := .cons (js "a") (.leaf []) .nil, text := [] }

/-! ### Round-trip machinery: hygiene predicate and navigation -/

/-- A key fit for the persisted format: non-empty, its own trim, and free
of the characters the format treats structurally. -/
def goodKeyB (k : JStr) : Bool :=
  decide (k ≠ []) && decide (trim k = k) && decide ('.' ∉ k) &&
    decide ('[' ∉ k) && decide ('=' ∉ k) && decide ('\n' ∉ k) &&
    decide ('\r' ∉ k)

/-- A value fit for the persisted format: its own trim and free of line
breaks. -/
def goodValB (v : JStr) : Bool :=
  decide (trim v = v) && decide ('\n' ∉ v) && decide ('\r' ∉ v)

/-- The serializer-friendly trees: every key good and unique within its
object, every value good, and in every object all string values precede
all subsections (the serializer emits a section's values before its
subsections, so any other order cannot survive a round trip).  The flag
records whether a subsection has already been seen at this level. -/
def goodE : Bool → Entries → Bool
  | b, .nil => (fun _ => true) b
  | b, .cons k (.leaf v) r =>
      !b && goodKeyB k && decide (lookupE r k = none) && goodValB v &&
        goodE b r
  | _, .cons k (.branch ces) r =>
      goodKeyB k && decide (lookupE r k = none) && goodE false ces &&
        goodE true r

/-- The subtree of entries reached by descending through objects. -/
def subAt : Entries → List JStr → Option Entries
  | es, [] => some es
  | es, p :: rest =>
      match lookupE es p with
      | some (.branch ces) => subAt ces rest
      | _ => none

/-- Replace the subtree at a path that descends through objects. -/
def replaceAt : Entries → List JStr → Entries → Entries
  | _, [], new => new
  | es, p :: rest, new =>
      match lookupE es p with
      | some (.branch ces) => setK es p (.branch (replaceAt ces rest new))
      | _ => es

/-- Store each key/value pair of a section block in order. -/
def applyKVs (a : Entries) (p : List JStr) (kvs : List (JStr × JStr)) :
    Entries :=
  kvs.foldl (fun a kv => setLeafAt a p kv.1 kv.2) a

/-- Key/value pairs as an entry list of leaves. -/
def kvsEntries : List (JStr × JStr) → Entries
  | [] => .nil
  | (k, v) :: r => .cons k (.leaf v) (kvsEntries r)

/-- The string-valued entries of an object, in order. -/
def leafPart : Entries → Entries
  | .nil => .nil
  | .cons k (.leaf v) r => .cons k (.leaf v) (leafPart r)
  | .cons _ (.branch _) r => leafPart r

/-- The object-valued entries of an object, in order. -/
def branchOnly : Entries → Entries
  | .nil => .nil
  | .cons _ (.leaf _) r => branchOnly r
  | .cons k (.branch ces) r => .cons k (.branch ces) (branchOnly r)

/-- One section applied to the parser state: ensure and select the
section, then store its key/value lines (the root section has no header
and stores into the current section). -/
def sproc : ParseSt → Sec → ParseSt
  | (a, c), ([], kvs) => (applyKVs a c kvs, c)
  | (a, _), (p :: ps, kvs) =>
      (applyKVs (ensurePath a (p :: ps)) (p :: ps) kvs, p :: ps)

/-- The line-level goodness a rendered section needs. -/
def SecGoodB (s : Sec) : Prop :=
  (∀ seg ∈ s.1, seg ≠ [] ∧ '.' ∉ seg) ∧
  (∀ kv ∈ s.2, kv.1 ≠ [] ∧ trim kv.1 = kv.1 ∧ '[' ∉ kv.1 ∧ '=' ∉ kv.1 ∧
    trim kv.2 = kv.2)

/-! ### The operation sequence behind the C1 counterexample -/

/-- The empty starting store (a missing `config.ini` loads as `{}`). -/
def rtStore0 : Store := { tree := .nil, text := [] }

/-- After `addLibrary('foo','static')`. -/
def rtStore1 : Store :=
  (addLibrary rtStore0 (some (js "foo")) (some (js "static")) true []).2

/-- After additionally `addDependency` on the `library` node itself. -/
def rtStore2 : Store := (addDependency rtStore1 (js "library") [] (js "d")).2

/-! ### Theorems -/

/-! ### Lemmas about `jsSplit`, `joinWith` and `trim` -/

theorem jsSplitGo_no_sep (sep : Char) :
    ∀ (x : JStr) (acc : JStr), sep ∉ x →
      jsSplitGo sep x acc = [acc.reverse ++ x] := by
  intro x
  induction x with
  | nil => intro acc _; simp [jsSplitGo]
  | cons c cs ih =>
      intro acc h
      have hc : c ≠ sep := fun he => h (he ▸ List.mem_cons_self c cs)
      have hcs : sep ∉ cs := fun hm => h (List.mem_cons_of_mem c hm)
      simp [jsSplitGo, hc, ih (c :: acc) hcs]

theorem jsSplitGo_append_sep (sep : Char) :
    ∀ (x : JStr) (acc r : JStr), sep ∉ x →
      jsSplitGo sep (x ++ sep :: r) acc =
        (acc.reverse ++ x) :: jsSplitGo sep r [] := by
  intro x
  induction x with
  | nil => intro acc r _; simp [jsSplitGo]
  | cons c cs ih =>
      intro acc r h
      have hc : c ≠ sep := fun he => h (he ▸ List.mem_cons_self c cs)
      have hcs : sep ∉ cs := fun hm => h (List.mem_cons_of_mem c hm)
      simp [jsSplitGo, hc, ih (c :: acc) r hcs]

theorem jsSplit_joinWith (sep : Char) :
    ∀ ps : List JStr, ps ≠ [] → (∀ x ∈ ps, sep ∉ x) →
      jsSplit sep (joinWith sep ps) = ps := by
  intro ps
  induction ps with
  | nil => intro h; exact absurd rfl h
  | cons x t ih =>
      intro _ hfree
      match t with
      | [] =>
          simpa [jsSplit, joinWith] using
            jsSplitGo_no_sep sep x [] (hfree x (List.mem_cons_self x []))
      | y :: t' =>
          have hx : sep ∉ x := hfree x (List.mem_cons_self _ _)
          have ht : ∀ z ∈ y :: t', sep ∉ z := fun z hz =>
            hfree z (List.mem_cons_of_mem _ hz)
          have := ih (by simp) ht
          simp only [joinWith, jsSplit] at this ⊢
          rw [jsSplitGo_append_sep sep x [] (joinWith sep (y :: t')) hx]
          simp [this]

theorem jsSplit_append_last (sep : Char) :
    ∀ (s : JStr) (acc k : JStr), sep ∉ k →
      jsSplitGo sep (s ++ sep :: k) acc = jsSplitGo sep s acc ++ [k] := by
  intro s
  induction s with
  | nil =>
      intro acc k hk
      simp [jsSplitGo, jsSplitGo_no_sep sep k [] hk]
  | cons c cs ih =>
      intro acc k hk
      by_cases hc : c = sep
      · subst hc; simp [jsSplitGo, ih [] k hk]
      · simp [jsSplitGo, hc, ih (c :: acc) k hk]

theorem mem_jsSplitGo_no_sep (sep : Char) :
    ∀ (s : JStr) (acc : JStr), sep ∉ acc →
      ∀ x ∈ jsSplitGo sep s acc, sep ∉ x := by
  intro s
  induction s with
  | nil =>
      intro acc hacc x hx
      simp [jsSplitGo] at hx
      subst hx
      simpa using hacc
  | cons c cs ih =>
      intro acc hacc x hx
      by_cases hc : c = sep
      · subst hc
        simp [jsSplitGo] at hx
        rcases hx with hx | hx
        · subst hx; simpa using hacc
        · exact ih [] (by simp) x hx
      · simp [jsSplitGo, hc] at hx
        have : sep ∉ c :: acc := by
          intro hm
          rcases List.mem_cons.mp hm with h | h
          · exact hc h.symm
          · exact hacc h
        exact ih (c :: acc) this x hx

theorem mem_jsSplit_no_sep (sep : Char) (s : JStr) :
    ∀ x ∈ jsSplit sep s, sep ∉ x :=
  mem_jsSplitGo_no_sep sep s [] (by simp)

theorem joinWith_append_ne_nil (sep : Char) :
    ∀ (xs : List JStr) (x : JStr), x ≠ [] →
      joinWith sep (xs ++ [x]) ≠ [] := by
  intro xs x hx
  match xs with
  | [] => simpa [joinWith] using hx
  | a :: t =>
      have : t ++ [x] ≠ [] := by simp
      match h : t ++ [x] with
      | [] => exact absurd h this
      | b :: t' => simp [joinWith, h]

theorem ltrim_cons_ws {c : Char} (h : wsChar c = true) (s : JStr) :
    ltrim (c :: s) = ltrim s := by
  simp [ltrim, List.dropWhile_cons, h]

theorem ltrim_cons_not_ws {c : Char} (h : wsChar c = false) (s : JStr) :
    ltrim (c :: s) = c :: s := by
  simp [ltrim, List.dropWhile_cons, h]

theorem ltrim_idem (s : JStr) : ltrim (ltrim s) = ltrim s := by
  induction s with
  | nil => simp [ltrim]
  | cons c cs ih =>
      by_cases h : wsChar c
      · rw [ltrim_cons_ws h, ih]
      · rw [ltrim_cons_not_ws (by simpa using h),
          ltrim_cons_not_ws (by simpa using h)]

theorem rtrim_append_ws {c : Char} (h : wsChar c = true) (s : JStr) :
    rtrim (s ++ [c]) = rtrim s := by
  simp [rtrim, List.reverse_append, ltrim_cons_ws h]

theorem rtrim_cons_not_ws {c : Char} (h : wsChar c = false) (s : JStr) :
    rtrim (c :: s) = c :: rtrim s := by
  simp only [rtrim, ltrim, List.reverse_cons, List.dropWhile_append]
  by_cases he : (s.reverse.dropWhile wsChar).isEmpty
  · rw [List.isEmpty_iff] at he
    simp [he, List.dropWhile_cons, h]
  · simp [he]

theorem rtrim_idem (s : JStr) : rtrim (rtrim s) = rtrim s := by
  simp [rtrim, ltrim_idem]

theorem trim_cons_ws {c : Char} (h : wsChar c = true) (s : JStr) :
    trim (c :: s) = trim s := by
  simp [trim, ltrim_cons_ws h]

theorem trim_append_ws {c : Char} (h : wsChar c = true) (s : JStr) :
    trim (s ++ [c]) = trim s := by
  unfold trim
  induction s with
  | nil =>
      simp [ltrim, List.dropWhile, h, rtrim]
  | cons a s' ih =>
      by_cases ha : wsChar a
      · rw [List.cons_append, ltrim_cons_ws ha, ltrim_cons_ws ha, ih]
      · rw [List.cons_append, ltrim_cons_not_ws (by simpa using ha),
          ltrim_cons_not_ws (by simpa using ha), ← List.cons_append,
          rtrim_append_ws h]

theorem trim_idem (s : JStr) : trim (trim s) = trim s := by
  unfold trim
  match hu : ltrim s with
  | [] => simp [rtrim, ltrim]
  | a :: u' =>
      have ha : wsChar a = false := by
        have hid := ltrim_idem s
        rw [hu] at hid
        by_contra hc
        rw [ltrim_cons_ws (by simpa using hc)] at hid
        have hlen : (ltrim u').length ≤ u'.length :=
          (List.dropWhile_sublist wsChar).length_le
        have hlen2 : (ltrim u').length = u'.length + 1 := by
          rw [hid]; simp
        omega
      rw [rtrim_cons_not_ws ha, ltrim_cons_not_ws ha, ← rtrim_cons_not_ws ha,
        rtrim_idem]

theorem head_not_ws_of_trim_eq {k : JStr} {a : Char} {t : JStr}
    (hk : trim k = k) (hcons : k = a :: t) : wsChar a = false := by
  subst hcons
  by_contra hc
  have ha : wsChar a = true := by simpa using hc
  rw [trim_cons_ws ha] at hk
  have h1 : (ltrim t).length ≤ t.length :=
    (List.dropWhile_sublist wsChar).length_le
  have h2 : (rtrim (ltrim t)).length ≤ (ltrim t).length := by
    simp only [rtrim]
    have hs : ((ltrim t).reverse.dropWhile wsChar).length ≤
        (ltrim t).reverse.length := (List.dropWhile_sublist wsChar).length_le
    simpa [ltrim] using hs
  have : (trim t).length = t.length + 1 := by rw [hk]; simp
  simp only [trim] at this
  omega

theorem trim_key_space (k : JStr) (hk : trim k = k) :
    trim (k ++ [' ']) = k := by
  rw [trim_append_ws (by decide) k, hk]

theorem trim_space_val (v : JStr) (hv : trim v = v) :
    trim (' ' :: v) = v := by
  rw [trim_cons_ws (by decide) v, hv]

theorem breakAtEq_append {k : JStr} (v : JStr) (hk : '=' ∉ k) :
    breakAtEq (k ++ '=' :: v) = some (k, v) := by
  induction k with
  | nil => simp [breakAtEq]
  | cons c cs ih =>
      have hc : c ≠ '=' := fun he => hk (he ▸ List.mem_cons_self c cs)
      have hcs : '=' ∉ cs := fun hm => hk (List.mem_cons_of_mem c hm)
      simp [breakAtEq, hc, ih hcs]

theorem headerContent_headerLine (p : List JStr) :
    headerContent (headerLine p) = some (joinWith '.' p) := by
  simp [headerContent, headerLine]

theorem not_mem_trim {c : Char} {s : JStr} (h : c ∉ s) : c ∉ trim s := by
  intro hmem
  apply h
  have h1 : trim s ⊆ ltrim s := by
    simp only [trim, rtrim]
    intro x hx
    have hx2 : x ∈ (ltrim s).reverse.dropWhile wsChar := by simpa using hx
    have := (List.dropWhile_sublist (p := wsChar)).subset hx2
    simpa using this
  have h2 : ltrim s ⊆ s := (List.dropWhile_sublist _).subset
  exact h2 (h1 hmem)

/-! ### Lemmas about entry lists and resolution -/

/-- Induction on an entry list along its tail (the mutual recursor
specialised to a motive that ignores the child nodes). -/
theorem Entries.tailInduction {motive : Entries → Prop} (hnil : motive .nil)
    (hcons : ∀ k n r, motive r → motive (.cons k n r)) : ∀ es, motive es
  | .nil => hnil
  | .cons k n r => hcons k n r (Entries.tailInduction hnil hcons r)

/-- One step of the resolution walk from an object. -/
theorem sectionWalk_branch_cons (es : Entries) (p : JStr) (rest : List JStr) :
    sectionWalk (.branch es) (p :: rest) =
      match lookupE es p with
      | some d => sectionWalk d rest
      | none => none := by
  simp [sectionWalk, truthy, jsGet]

theorem lookupE_setK_self (es : Entries) (k : JStr) (v : Node) :
    lookupE (setK es k v) k = some v := by
  induction es using Entries.tailInduction with
  | hnil => simp [setK, lookupE]
  | hcons k' n r ih =>
      by_cases h : k' = k
      · simp [setK, lookupE, h]
      · simp [setK, lookupE, h, ih]

theorem lookupE_setK_ne (es : Entries) {k k' : JStr} (v : Node)
    (h : k' ≠ k) : lookupE (setK es k v) k' = lookupE es k' := by
  have hne : ¬(k = k') := fun he => h he.symm
  induction es using Entries.tailInduction with
  | hnil =>
      simp only [setK, lookupE]
      rw [if_neg hne]
  | hcons k0 n r ih =>
      by_cases h0 : k0 = k
      · subst h0
        simp only [setK, if_pos rfl, lookupE]
        rw [if_neg hne, if_neg hne]
      · simp only [setK, h0, if_false, lookupE]
        by_cases h1 : k0 = k'
        · simp [h1]
        · simp [h1, ih]

theorem setK_fresh (es : Entries) (k : JStr) (v : Node)
    (h : lookupE es k = none) :
    setK es k v = es.app (.cons k v .nil) := by
  induction es using Entries.tailInduction with
  | hnil => simp [setK, Entries.app]
  | hcons k' n r ih =>
      by_cases h' : k' = k
      · simp [lookupE, h'] at h
      · simp only [lookupE, h', if_false] at h
        simp [setK, h', Entries.app, ih h]

theorem lookupE_app (a b : Entries) (k : JStr) :
    lookupE (a.app b) k =
      match lookupE a k with
      | some n => some n
      | none => lookupE b k := by
  induction a using Entries.tailInduction with
  | hnil => simp [Entries.app, lookupE]
  | hcons k' n r ih =>
      by_cases h : k' = k
      · simp [Entries.app, lookupE, h]
      · simp [Entries.app, lookupE, h, ih]

theorem app_assoc (a b c : Entries) :
    (a.app b).app c = a.app (b.app c) := by
  induction a using Entries.tailInduction with
  | hnil => simp [Entries.app]
  | hcons k n r ih => simp [Entries.app, ih]

theorem app_nil (a : Entries) : a.app .nil = a := by
  induction a using Entries.tailInduction with
  | hnil => simp [Entries.app]
  | hcons k n r ih => simp [Entries.app, ih]

theorem setK_app_fresh_last (a : Entries) (k : JStr) (v w : Node)
    (h : lookupE a k = none) :
    setK (a.app (.cons k v .nil)) k w = a.app (.cons k w .nil) := by
  induction a using Entries.tailInduction with
  | hnil => simp [Entries.app, setK]
  | hcons k' n r ih =>
      by_cases h' : k' = k
      · simp [lookupE, h'] at h
      · simp only [lookupE, h', if_false] at h
        simp [Entries.app, setK, h', ih h]

theorem sectionWalk_append (n : Node) (l1 l2 : List JStr) :
    sectionWalk n (l1 ++ l2) =
      match sectionWalk n l1 with
      | some d => sectionWalk d l2
      | none => none := by
  induction l1 generalizing n with
  | nil => simp [sectionWalk]
  | cons p rest ih =>
      by_cases ht : truthy n
      · simp only [List.cons_append, sectionWalk, ht, if_true]
        cases jsGet n p with
        | none => simp
        | some d => simpa using ih d
      · simp [sectionWalk, ht]

theorem sectionWalk_leaf_is_leaf (s : JStr) (parts : List JStr) (n : Node)
    (h : sectionWalk (.leaf s) parts = some n) : ∃ w, n = .leaf w := by
  induction parts generalizing s with
  | nil =>
      simp [sectionWalk] at h
      exact ⟨s, h.symm⟩
  | cons p rest ih =>
      simp only [sectionWalk] at h
      by_cases ht : truthy (Node.leaf s)
      · rw [if_pos ht] at h
        cases hg : jsGet (.leaf s) p with
        | none => rw [hg] at h; cases h
        | some d =>
            rw [hg] at h
            simp only [jsGet] at hg
            cases hc : canonicalIndex p with
            | none => rw [hc] at hg; cases hg
            | some i =>
                rw [hc] at hg
                by_cases hlt : i < s.length
                · simp only [hlt, dif_pos] at hg
                  cases hg
                  exact ih _ h
                · simp [hlt] at hg
      · rw [if_neg ht] at h; cases h

theorem mutateAt_resolves (f : Node → Node) :
    ∀ (parts : List JStr) (t : Entries) (b : Entries),
      parts ≠ [] →
      sectionWalk (.branch t) parts = some (.branch b) →
      sectionWalk (.branch (mutateAt t parts f)) parts = some (f (.branch b)) := by
  intro parts
  induction parts with
  | nil => intro t b h; exact absurd rfl h
  | cons p rest ih =>
      intro t b _ hw
      rw [sectionWalk_branch_cons] at hw
      cases hl : lookupE t p with
      | none => rw [hl] at hw; cases hw
      | some d =>
          rw [hl] at hw
          match rest with
          | [] =>
              simp only [sectionWalk] at hw
              have hd : d = .branch b := Option.some.inj hw
              subst hd
              have hm : mutateAt t [p] f = setK t p (f (.branch b)) := by
                simp [mutateAt, hl]
              rw [hm, sectionWalk_branch_cons, lookupE_setK_self]
              rfl
          | q :: rest' =>
              cases d with
              | leaf s =>
                  rcases sectionWalk_leaf_is_leaf s (q :: rest') _ hw with ⟨w, hww⟩
                  cases hww
              | branch ces =>
                  have hrec := ih ces b (by simp) hw
                  have hm : mutateAt t (p :: q :: rest') f =
                      setK t p (.branch (mutateAt ces (q :: rest') f)) := by
                    simp [mutateAt, hl]
                  rw [hm, sectionWalk_branch_cons, lookupE_setK_self]
                  exact hrec

theorem jsSplit_ne_nil (sep : Char) (s : JStr) : jsSplit sep s ≠ [] := by
  suffices h : ∀ (x : JStr) (acc : JStr), jsSplitGo sep x acc ≠ [] from h s []
  intro x
  induction x with
  | nil => intro acc; simp [jsSplitGo]
  | cons c cs ih =>
      intro acc
      by_cases hc : c = sep
      · simp [jsSplitGo, hc]
      · simp only [jsSplitGo, hc, if_false]
        exact ih (c :: acc)

theorem jsSplit_single (sep : Char) {k : JStr} (h : sep ∉ k) :
    jsSplit sep k = [k] := by
  simpa [jsSplit] using jsSplitGo_no_sep sep k [] h

theorem setK_lookup_self (es : Entries) (k : JStr) (n : Node)
    (h : lookupE es k = some n) : setK es k n = es := by
  induction es using Entries.tailInduction with
  | hnil => simp [lookupE] at h
  | hcons k0 n0 r ih =>
      by_cases h0 : k0 = k
      · subst h0
        simp only [lookupE, if_true, eq_self_iff_true, Option.some.injEq] at h
        simp [setK, h]
      · simp only [lookupE, h0, if_false] at h
        simp [setK, h0, ih h]

theorem mutateAt_leaf_unchanged (f : Node → Node)
    (hf : ∀ w, f (.leaf w) = .leaf w) :
    ∀ (parts : List JStr) (t : Entries) (v : JStr),
      sectionWalk (.branch t) parts = some (.leaf v) →
      mutateAt t parts f = t := by
  intro parts
  induction parts with
  | nil => intro t v _; rfl
  | cons p rest ih =>
      intro t v hw
      rw [sectionWalk_branch_cons] at hw
      cases hl : lookupE t p with
      | none => rw [hl] at hw; cases hw
      | some d =>
          rw [hl] at hw
          match rest with
          | [] =>
              simp only [sectionWalk] at hw
              have hd : d = .leaf v := Option.some.inj hw
              subst hd
              simp [mutateAt, hl, hf, setK_lookup_self t p _ hl]
          | q :: rest' =>
              cases d with
              | leaf s => simp [mutateAt, hl]
              | branch ces =>
                  have := ih ces v hw
                  simp [mutateAt, hl, this, setK_lookup_self t p _ hl]

theorem depsArrayOf_elems (v : JStr) :
    ∀ x ∈ depsArrayOf v, ',' ∉ x ∧ trim x = x := by
  intro x hx
  simp only [depsArrayOf] at hx
  by_cases hv : v = []
  · simp [hv] at hx
  · rw [if_neg hv] at hx
    rcases List.mem_map.mp hx with ⟨y, hy, hxy⟩
    subst hxy
    exact ⟨not_mem_trim (mem_jsSplit_no_sep ',' v y hy), trim_idem y⟩

theorem depsArrayOf_join (arr : List JStr) (dep : JStr)
    (harr : ∀ x ∈ arr, ',' ∉ x ∧ trim x = x)
    (hdep1 : ',' ∉ dep) (hdep2 : trim dep = dep) (hdep3 : dep ≠ []) :
    depsArrayOf (joinWith ',' (arr ++ [dep])) = arr ++ [dep] := by
  have hne : joinWith ',' (arr ++ [dep]) ≠ [] :=
    joinWith_append_ne_nil ',' arr dep hdep3
  have hfree : ∀ x ∈ arr ++ [dep], ',' ∉ x := by
    intro x hx
    rcases List.mem_append.mp hx with hx | hx
    · exact (harr x hx).1
    · simp only [List.mem_singleton] at hx
      subst hx; exact hdep1
  have hsplit : jsSplit ',' (joinWith ',' (arr ++ [dep])) = arr ++ [dep] :=
    jsSplit_joinWith ',' (arr ++ [dep]) (by simp) hfree
  simp only [depsArrayOf, if_neg hne, hsplit, List.map_append, List.map_cons,
    List.map_nil, hdep2]
  congr 1
  conv_rhs => rw [← List.map_id arr]
  exact List.map_congr_left (fun x hx => (harr x hx).2)

theorem ensureLibrary_branch (tt : Entries)
    (hs : (match lookupE tt libraryKey with
           | some (.leaf v) => decide (v = [])
           | _ => true) = true) :
    ∃ b, lookupE (ensureLibrary tt) libraryKey = some (.branch b) := by
  unfold ensureLibrary
  cases hl : lookupE tt libraryKey with
  | none => exact ⟨.nil, lookupE_setK_self _ _ _⟩
  | some d =>
      cases d with
      | branch b => exact ⟨b, hl⟩
      | leaf v =>
          rw [hl] at hs
          simp only [decide_eq_true_eq] at hs
          subst hs
          simp only [if_pos rfl]
          exact ⟨.nil, lookupE_setK_self _ _ _⟩

theorem lookupE_pathKeysOk {es : Entries} (hok : pathKeysOkB es = true)
    {k : JStr} {n : Node} (hlk : lookupE es k = some n) :
    k ≠ [] ∧ '.' ∉ k ∧ ∀ ces, n = .branch ces → pathKeysOkB ces = true := by
  induction es using Entries.tailInduction with
  | hnil => simp [lookupE] at hlk
  | hcons k0 n0 r ih =>
      by_cases h0 : k0 = k
      · subst h0
        simp only [lookupE, if_true, eq_self_iff_true, Option.some.injEq] at hlk
        subst hlk
        cases n0 with
        | leaf v =>
            simp only [pathKeysOkB, Bool.and_eq_true, decide_eq_true_eq] at hok
            exact ⟨hok.1.1, hok.1.2, fun ces hc => by cases hc⟩
        | branch ces =>
            simp only [pathKeysOkB, Bool.and_eq_true, decide_eq_true_eq] at hok
            refine ⟨hok.1.1.1, hok.1.1.2, fun ces' hc => ?_⟩
            cases hc
            exact hok.1.2
      · simp only [lookupE, h0, if_false] at hlk
        cases n0 with
        | leaf v =>
            simp only [pathKeysOkB, Bool.and_eq_true, decide_eq_true_eq] at hok
            exact ih hok.2 hlk
        | branch ces =>
            simp only [pathKeysOkB, Bool.and_eq_true, decide_eq_true_eq] at hok
            exact ih hok.2 hlk

/-! ### Claim C4 -/

/-- C4: the claim states that `getSectionData` never descends through a
Leaf and fails with NotFound whenever an intermediate segment is a Leaf.
The code contradicts this: on the tree `{ x: 'hi' }` the path `x.0`
descends *into* the string through JavaScript index access and returns the
one-character string `'h'` instead of failing, because
`'hi'['0'] = 'h' !== undefined`.  The spec is clearly the intent (a path
resolver has no business indexing into a value) and the code a slip. -/
theorem C4_leaf_descent :
    getSectionData (.cons (js "x") (.leaf (js "hi")) .nil) (js "x.0") =
      some (.leaf (js "h")) := by decide

/-! ### Claim C6 -/

/-- C6 counterexample: on the tree `{ a: '' }` the path `a` *does* resolve
(to the empty-string Leaf), yet `updateIniValue` reports SectionNotFound
and changes nothing, because `if (targetData)` treats the resolved empty
string as falsy.  This refutes "when the path resolves, it sets
branch[key] = newValue and persists". -/
theorem C6_counterexample :
    getSectionData exEmptyLeafStore.tree (js "a") = some (.leaf []) ∧
    updateIniValue exEmptyLeafStore (js "a") (js "k") (js "v") =
      (.sectionNotFound, exEmptyLeafStore) := by decide

/-- C6 (amended): `updateIniValue` fails with SectionNotFound — leaving
both the tree and the backing text unchanged — when the path does not
resolve *or* resolves to the empty-string Leaf; when the path resolves to
a Branch it sets `branch[key] = newValue` and persists the full serialized
tree; when it resolves to a non-empty Leaf it proceeds but cannot change
any tree node. -/
theorem C6_update_value (st : Store) (sec label value : JStr) :
    (getSectionData st.tree sec = none →
      updateIniValue st sec label value = (.sectionNotFound, st)) ∧
    (getSectionData st.tree sec = some (.leaf []) →
      updateIniValue st sec label value = (.sectionNotFound, st)) ∧
    (∀ b, getSectionData st.tree sec = some (.branch b) →
      (updateIniValue st sec label value).1 = .updated ∧
      getSectionData (updateIniValue st sec label value).2.tree sec =
        some (.branch (setK b label (.leaf value))) ∧
      (updateIniValue st sec label value).2.text =
        iniStringify (updateIniValue st sec label value).2.tree) ∧
    (∀ v, v ≠ [] → getSectionData st.tree sec = some (.leaf v) →
      (updateIniValue st sec label value).2.tree = st.tree) := by
  refine ⟨?_, ?_, ?_, ?_⟩
  · intro h; simp [updateIniValue, h]
  · intro h; simp [updateIniValue, h, truthy]
  · intro b h
    have hmut := mutateAt_resolves (assignKey label value)
      (jsSplit '.' sec) st.tree b (jsSplit_ne_nil '.' sec) h
    refine ⟨?_, ?_, ?_⟩
    · simp [updateIniValue, h, truthy]
    · simp only [updateIniValue, h, truthy, if_true, updateIniFile]
      simpa [getSectionData, assignKey] using hmut
    · simp [updateIniValue, h, truthy, updateIniFile]
  · intro v hv h
    have hmut := mutateAt_leaf_unchanged (assignKey label value)
      (fun w => rfl) (jsSplit '.' sec) st.tree v h
    simp [updateIniValue, h, truthy, hv, updateIniFile, hmut]

/-- C6 witness: the Branch case of `C6_update_value` evaluated on a
concrete store. -/
theorem C6_update_value_witness :
    (updateIniValue exAppStore (js "application") (js "k") (js "v")).1 =
        .updated ∧
      getSectionData
          (updateIniValue exAppStore (js "application") (js "k") (js "v")).2.tree
          (js "application") =
        some (.branch (setK .nil (js "k") (.leaf (js "v")))) :=
  have h := (C6_update_value exAppStore (js "application") (js "k")
      (js "v")).2.2.1 .nil (by decide)
  ⟨h.1, h.2.1⟩

/-! ### Claim C7 -/

/-- C7: `addLibrary` sanitizes the supplied name (stripping a leading
relative-path prefix and every slash or backslash) and then validates the
allow-list pattern `[A-Za-z0-9_-]+`; `lib-1` passes, `../evil` sanitizes
to `..evil` which still contains `.` and fails with InvalidName before any
tree or disk mutation. -/
theorem C7_name_validation :
    validLibraryName (sanitizeLibraryName (js "lib-1")) = true ∧
    validLibraryName (sanitizeLibraryName (js "../evil")) = false ∧
    ∀ (st : Store) (raw : JStr) (ty : Option JStr) (ok : Bool) (diag : JStr),
      raw ≠ [] → validLibraryName (sanitizeLibraryName raw) = false →
      addLibrary st (some raw) ty ok diag = (.invalidName, st) := by
  refine ⟨by decide, by decide, ?_⟩
  intro st raw ty ok diag hraw hval
  simp [addLibrary, hraw, hval]

/-- C7 witness: rejecting `../evil` on a concrete store changes nothing. -/
theorem C7_name_validation_witness :
    addLibrary { tree := .nil, text := [] } (some (js "../evil"))
        (some (js "static")) true [] =
      (.invalidName, { tree := .nil, text := [] }) :=
  C7_name_validation.2.2 _ _ _ _ _ (by decide) (by decide)

/-! ### Claim C8 -/

/-- C8: calling `addLibrary` twice with the same valid name yields success
then DuplicateLibrary, and the second call changes neither the in-memory
tree nor the backing text.  (The sanity hypothesis excludes a `library`
property holding a non-empty string, where the duplicate check reads into
a string primitive.) -/
theorem C8_duplicate_library (st : Store) (raw ty diag : JStr)
    (hraw : raw ≠ [])
    (hval : validLibraryName (sanitizeLibraryName raw) = true)
    (hsane : (match lookupE st.tree libraryKey with
              | some (.leaf v) => decide (v = [])
              | _ => true) = true)
    (hdup : libraryExists (ensureLibrary st.tree)
        (sanitizeLibraryName raw) = false) :
    (addLibrary st (some raw) (some ty) true diag).1 = .success ∧
    addLibrary (addLibrary st (some raw) (some ty) true diag).2
        (some raw) (some ty) true diag =
      (.duplicateLibrary, (addLibrary st (some raw) (some ty) true diag).2) := by
  obtain ⟨b, hb⟩ := ensureLibrary_branch st.tree hsane
  set nm := sanitizeLibraryName raw with hnm
  set t1 := ensureLibrary st.tree with ht1
  have h1 : addLibrary st (some raw) (some ty) true diag =
      (.success, updateIniFile (insertLibrary t1 nm ty)) := by
    simp [addLibrary, hraw, hval, hdup, ← hnm, ← ht1]
  have hins : insertLibrary t1 nm ty =
      setK t1 libraryKey
        (.branch (setK b nm (newLibraryEntry nm ty))) := by
    simp [insertLibrary, hb]
  set t2 := insertLibrary t1 nm ty with ht2
  have hlk : lookupE t2 libraryKey =
      some (.branch (setK b nm (newLibraryEntry nm ty))) := by
    rw [hins]; exact lookupE_setK_self _ _ _
  have hens : ensureLibrary t2 = t2 := by
    simp only [ensureLibrary, hlk]
  have hex : libraryExists t2 nm = true := by
    simp only [libraryExists, hlk, jsGet, lookupE_setK_self, newLibraryEntry,
      truthy]
  refine ⟨by rw [h1], ?_⟩
  rw [h1]
  simp [addLibrary, hraw, hval, updateIniFile, ← hnm, hens, hex]

/-- C8 witness: `addLibrary('foo','static')` twice on the empty store. -/
theorem C8_duplicate_library_witness :
    (addLibrary { tree := Entries.nil, text := [] } (some (js "foo"))
        (some (js "static")) true []).1 = .success ∧
    addLibrary
        (addLibrary { tree := Entries.nil, text := [] } (some (js "foo"))
          (some (js "static")) true []).2
        (some (js "foo")) (some (js "static")) true [] =
      (.duplicateLibrary,
       (addLibrary { tree := Entries.nil, text := [] } (some (js "foo"))
          (some (js "static")) true []).2) :=
  C8_duplicate_library { tree := Entries.nil, text := [] } (js "foo")
    (js "static") [] (by decide) (by decide) (by decide) (by decide)

/-! ### Claim C9 -/

/-- C9 counterexample: on a store with no `library` section, a failing
setup script leaves the *backing text* unchanged but not the in-memory
tree: `addLibrary` has already executed
`if (!this.iniData['library']) this.iniData['library'] = {}` before
invoking the script, so the tree gains an empty `library` branch.  This
refutes "if that external action fails, the tree … left unmutated". -/
theorem C9_counterexample :
    (addLibrary { tree := Entries.nil, text := [] } (some (js "foo"))
        (some (js "static")) false (js "boom")).2.tree ≠ Entries.nil ∧
    addLibrary { tree := Entries.nil, text := [] } (some (js "foo"))
        (some (js "static")) false (js "boom") =
      (.setupFailed (js "boom"),
       { tree := .cons (js "library") (.branch .nil) .nil, text := [] }) := by
  decide

/-- C9 (amended): the setup script runs before the library entry is added
and before any write; when it fails, the backing text is unchanged, the
failure surfaces to the caller with the script's diagnostic verbatim, and
the in-memory tree is unchanged *except* that a missing (or empty-string)
`library` property has been set to an empty object beforehand; when
`library` was already an object the tree is exactly unchanged. -/
theorem C9_external_failure (st : Store) (raw ty diag : JStr)
    (hraw : raw ≠ [])
    (hval : validLibraryName (sanitizeLibraryName raw) = true)
    (hdup : libraryExists (ensureLibrary st.tree)
        (sanitizeLibraryName raw) = false) :
    addLibrary st (some raw) (some ty) false diag =
      (.setupFailed diag, { tree := ensureLibrary st.tree, text := st.text }) ∧
    ((∃ b, lookupE st.tree libraryKey = some (.branch b)) →
      ensureLibrary st.tree = st.tree) := by
  constructor
  · cases st with
    | mk t0 x0 => simp [addLibrary, hraw, hval, hdup]
  · rintro ⟨b, hb⟩
    simp [ensureLibrary, hb]

/-- C9 witness: failing setup on a store that already has a `library`
object leaves the whole store unchanged and surfaces the diagnostic. -/
theorem C9_external_failure_witness :
    addLibrary { tree := demoLib, text := [] } (some (js "bar"))
        (some (js "static")) false (js "boom") =
      (.setupFailed (js "boom"),
       { tree := ensureLibrary demoLib, text := [] }) ∧
    ensureLibrary demoLib = demoLib :=
  have h := C9_external_failure { tree := demoLib, text := [] } (js "bar")
    (js "static") (js "boom") (by decide) (by decide) (by decide)
  ⟨h.1, h.2 ⟨.cons (js "foo") (.branch fooEntries) .nil, by decide⟩⟩

/-! ### Claims C3 and C10: `addDependency` -/

/-- The behaviour of `addDependency` when the section resolves to an
object whose `dependencies` property is a string (or absent): membership
in the trimmed split decides between `already exists` (no write) and
append-and-persist. -/
theorem addDependency_branch (st : Store) (sa la dep sec : JStr)
    (b : Entries) (v : JStr)
    (hsec : (if sa ≠ [] then sa else la) = sec) (hne : sec ≠ [])
    (hres : getSectionData st.tree sec = some (.branch b))
    (hdeps : lookupE b depsKey = some (.leaf v) ∨
             (lookupE b depsKey = none ∧ v = [])) :
    addDependency st sa la dep =
      if dep ∈ depsArrayOf v then (.alreadyExists, st)
      else
        (.added, updateIniFile (mutateAt st.tree (jsSplit '.' sec)
          (assignKey depsKey (joinWith ',' (depsArrayOf v ++ [dep]))))) := by
  rcases hdeps with hd | ⟨hd, hv⟩
  · simp [addDependency, hsec, hne, hres, hd, truthy, addDependencyToList]
  · subst hv
    simp [addDependency, hsec, hne, hres, hd, truthy, addDependencyToList]

/-- C3 counterexample: with the whitespace-carrying name `'a '`,
`addDependency` applied twice is *not* idempotent — the duplicate test
compares the raw name against the trimmed entries, so the second call
appends again (`dependencies` becomes `'a,a '`). -/
theorem C3_counterexample :
    (addDependency
        (addDependency exAppStore (js "application") [] (js "a ")).2
        (js "application") [] (js "a ")).1 = .added ∧
    (addDependency
        (addDependency exAppStore (js "application") [] (js "a ")).2
        (js "application") [] (js "a ")).2.tree ≠
      (addDependency exAppStore (js "application") [] (js "a ")).2.tree := by
  decide

/-- C3 (amended): for a section resolving to an object, `addDependency`
splits the `dependencies` string (defaulting to empty) on `,` trimming
each entry and appends the name only if absent; a duplicate add performs
no mutation and no write and signals `already exists`; and the
double-add-equals-single-add property holds provided the dependency name
is its own trim, contains no comma, and is non-empty — the whitespace
counterexample shows the restriction is necessary. -/
theorem C3_add_dependency (st : Store) (sa la dep sec : JStr) (b : Entries)
    (v : JStr)
    (hsec : (if sa ≠ [] then sa else la) = sec) (hne : sec ≠ [])
    (hres : getSectionData st.tree sec = some (.branch b))
    (hdeps : lookupE b depsKey = some (.leaf v) ∨
             (lookupE b depsKey = none ∧ v = [])) :
    (dep ∈ depsArrayOf v → addDependency st sa la dep = (.alreadyExists, st)) ∧
    (dep ∉ depsArrayOf v → trim dep = dep → ',' ∉ dep → dep ≠ [] →
      addDependency (addDependency st sa la dep).2 sa la dep =
        (.alreadyExists, (addDependency st sa la dep).2)) := by
  have hmain := addDependency_branch st sa la dep sec b v hsec hne hres hdeps
  constructor
  · intro hmem; rw [hmain, if_pos hmem]
  · intro hmem htrim hcomma hnil
    have hfst : addDependency st sa la dep =
        (.added, updateIniFile (mutateAt st.tree (jsSplit '.' sec)
          (assignKey depsKey (joinWith ',' (depsArrayOf v ++ [dep]))))) := by
      rw [hmain, if_neg hmem]
    rw [hfst]
    show addDependency
        (updateIniFile (mutateAt st.tree (jsSplit '.' sec)
          (assignKey depsKey (joinWith ',' (depsArrayOf v ++ [dep])))))
        sa la dep = _
    have hmut := mutateAt_resolves
      (assignKey depsKey (joinWith ',' (depsArrayOf v ++ [dep])))
      (jsSplit '.' sec) st.tree b (jsSplit_ne_nil '.' sec) hres
    have hres2 : getSectionData
        (updateIniFile (mutateAt st.tree (jsSplit '.' sec)
          (assignKey depsKey (joinWith ',' (depsArrayOf v ++ [dep]))))).tree
        sec =
        some (.branch (setK b depsKey
          (.leaf (joinWith ',' (depsArrayOf v ++ [dep]))))) := by
      simpa [getSectionData, assignKey, updateIniFile] using hmut
    have hmain2 := addDependency_branch
      (updateIniFile (mutateAt st.tree (jsSplit '.' sec)
        (assignKey depsKey (joinWith ',' (depsArrayOf v ++ [dep])))))
      sa la dep sec
      (setK b depsKey (.leaf (joinWith ',' (depsArrayOf v ++ [dep]))))
      (joinWith ',' (depsArrayOf v ++ [dep])) hsec hne hres2
      (Or.inl (lookupE_setK_self _ _ _))
    have harray : depsArrayOf (joinWith ',' (depsArrayOf v ++ [dep])) =
        depsArrayOf v ++ [dep] :=
      depsArrayOf_join _ _ (depsArrayOf_elems v) hcomma htrim hnil
    rw [hmain2, harray, if_pos (by simp)]

/-- C3 witness: adding `d` twice to an empty `application` section — the
second call is the `already exists` no-op. -/
theorem C3_add_dependency_witness :
    addDependency (addDependency exAppStore (js "application") [] (js "d")).2
        (js "application") [] (js "d") =
      (.alreadyExists,
       (addDependency exAppStore (js "application") [] (js "d")).2) :=
  (C3_add_dependency exAppStore (js "application") [] (js "d")
      (js "application") .nil [] (by decide) (by decide) (by decide)
      (Or.inr ⟨by decide, rfl⟩)).2 (by decide) (by decide) (by decide)
      (by decide)

/-- C10 (implicit): `addDependency` performs no validation and stores the
name verbatim — the new `dependencies` leaf is the previous trimmed
entries plus the raw name, comma-joined; in particular the comma-carrying
name `x,y` is stored as is and splits back into the two distinct entries
`x` and `y` on the next read. -/
theorem C10_verbatim_append :
    (∀ (st : Store) (sa la dep sec : JStr) (b : Entries) (v : JStr),
      (if sa ≠ [] then sa else la) = sec → sec ≠ [] →
      getSectionData st.tree sec = some (.branch b) →
      (lookupE b depsKey = some (.leaf v) ∨
        (lookupE b depsKey = none ∧ v = [])) →
      dep ∉ depsArrayOf v →
      (addDependency st sa la dep).1 = .added ∧
      getSectionData (addDependency st sa la dep).2.tree sec =
        some (.branch (setK b depsKey
          (.leaf (joinWith ',' (depsArrayOf v ++ [dep])))))) ∧
    depsArrayOf (js "x,y") = [js "x", js "y"] := by
  refine ⟨?_, by decide⟩
  intro st sa la dep sec b v hsec hne hres hdeps hmem
  have hmain := addDependency_branch st sa la dep sec b v hsec hne hres hdeps
  have hfst : addDependency st sa la dep =
      (.added, updateIniFile (mutateAt st.tree (jsSplit '.' sec)
        (assignKey depsKey (joinWith ',' (depsArrayOf v ++ [dep]))))) := by
    rw [hmain, if_neg hmem]
  rw [hfst]
  have hmut := mutateAt_resolves
    (assignKey depsKey (joinWith ',' (depsArrayOf v ++ [dep])))
    (jsSplit '.' sec) st.tree b (jsSplit_ne_nil '.' sec) hres
  exact ⟨rfl, by simpa [getSectionData, assignKey, updateIniFile] using hmut⟩

/-- C10 witness: adding `x,y` to an empty `application` section stores it
verbatim, and the stored string reads back as two entries. -/
theorem C10_verbatim_append_witness :
    ((addDependency exAppStore (js "application") [] (js "x,y")).1 = .added ∧
      getSectionData
          (addDependency exAppStore (js "application") [] (js "x,y")).2.tree
          (js "application") =
        some (.branch (setK .nil depsKey
          (.leaf (joinWith ',' (depsArrayOf [] ++ [js "x,y"])))))) ∧
    depsArrayOf (js "x,y") = [js "x", js "y"] :=
  ⟨C10_verbatim_append.1 exAppStore (js "application") [] (js "x,y")
      (js "application") .nil [] (by decide) (by decide) (by decide)
      (Or.inr ⟨by decide, rfl⟩) (by decide),
   C10_verbatim_append.2⟩

/-! ### Claim C5: path construction vs. resolution -/

/-- C5 counterexample: a top-level key containing a dot.  The node is
reachable (it is a root item, so `getChildren` gives it section path
`a.b`), but feeding `a.b` back into `getSectionData` splits at the dot
and resolves nothing — not the identical node. -/
theorem C5_counterexample :
    ReachableItem exDotTree (js "a.b")
      (.branch (.cons (js "k") (.leaf (js "v")) .nil)) (js "a.b") ∧
    getSectionData exDotTree (js "a.b") = none :=
  ⟨ReachableItem.top _ _ (by decide), by decide⟩

/-- C5 (amended): when every key of the tree is non-empty and dot-free,
every *Branch* item reachable through `getChildren` carries a section path
that `getSectionData` resolves back to the identical node.  (Leaf items
deliberately carry their parent's section path — "Retain parent section
for keys" — so the inverse property concerns section nodes; dotted or
empty keys break it, as the counterexample shows.) -/
theorem C5_path_resolution (root : Entries) (l : JStr) (es' : Entries)
    (s : JStr) (hok : pathKeysOkB root = true)
    (hreach : ReachableItem root l (.branch es') s) :
    getSectionData root s = some (.branch es') := by
  suffices h : ∀ l d s, ReachableItem root l d s →
      ∀ ces, d = .branch ces →
        getSectionData root s = some (.branch ces) ∧ s ≠ [] ∧
          pathKeysOkB ces = true from
    (h l _ s hreach es' rfl).1
  intro l d s hreach
  induction hreach with
  | top k n hlk =>
      intro ces hn
      subst hn
      obtain ⟨hk1, hk2, hk3⟩ := lookupE_pathKeysOk hok hlk
      refine ⟨?_, hk1, hk3 ces rfl⟩
      unfold getSectionData
      rw [jsSplit_single '.' hk2, sectionWalk_branch_cons, hlk]
      rfl
  | child pl pes ps k n hparent hlk ih =>
      intro ces hn
      subst hn
      obtain ⟨hres, hps, hpesok⟩ := ih pes rfl
      obtain ⟨hk1, hk2, hk3⟩ := lookupE_pathKeysOk hpesok hlk
      have hsec : childSection ps k (.branch ces) = ps ++ '.' :: k := by
        simp [childSection, hps]
      rw [hsec]
      have hsplit : jsSplit '.' (ps ++ '.' :: k) = jsSplit '.' ps ++ [k] := by
        simpa [jsSplit] using jsSplit_append_last '.' ps [] k hk2
      refine ⟨?_, by simp, hk3 ces rfl⟩
      unfold getSectionData at hres ⊢
      rw [hsplit, sectionWalk_append, hres]
      show sectionWalk (.branch pes) [k] = some (.branch ces)
      rw [sectionWalk_branch_cons, hlk]
      rfl

/-- C5 witness: the reachable item `library.foo` of the demo tree resolves
back to its own node. -/
theorem C5_path_resolution_witness :
    getSectionData demoLib (js "library.foo") = some (.branch fooEntries) :=
  have h1 : ReachableItem demoLib (js "library")
      (.branch (.cons (js "foo") (.branch fooEntries) .nil)) (js "library") :=
    ReachableItem.top _ _ (by decide)
  have h2 : ReachableItem demoLib (js "foo") (.branch fooEntries)
      (childSection (js "library") (js "foo") (.branch fooEntries)) :=
    ReachableItem.child _ _ _ _ _ h1 (by decide)
  have hcs : childSection (js "library") (js "foo") (.branch fooEntries) =
      js "library.foo" := by decide
  C5_path_resolution demoLib (js "foo") fooEntries (js "library.foo")
    (by decide) (hcs ▸ h2)

theorem setK_setK (es : Entries) (k : JStr) (v w : Node) :
    setK (setK es k v) k w = setK es k w := by
  induction es using Entries.tailInduction with
  | hnil => simp [setK]
  | hcons k0 n0 r ih =>
      by_cases h0 : k0 = k
      · simp [setK, h0]
      · simp [setK, h0, ih]

theorem replaceAt_self : ∀ (p : List JStr) (es a : Entries),
    subAt es p = some a → replaceAt es p a = es := by
  intro p
  induction p with
  | nil =>
      intro es a h
      simp only [subAt, Option.some.injEq] at h
      simp [replaceAt, h]
  | cons q rest ih =>
      intro es a h
      simp only [subAt] at h
      cases hl : lookupE es q with
      | none => rw [hl] at h; cases h
      | some d =>
          rw [hl] at h
          cases d with
          | leaf v => cases h
          | branch ces =>
              simp only [replaceAt, hl, ih ces a h]
              exact setK_lookup_self es q _ hl

theorem subAt_replaceAt : ∀ (p : List JStr) (es a b : Entries),
    subAt es p = some a → subAt (replaceAt es p b) p = some b := by
  intro p
  induction p with
  | nil => intro es a b _; simp [subAt, replaceAt]
  | cons q rest ih =>
      intro es a b h
      simp only [subAt] at h
      cases hl : lookupE es q with
      | none => rw [hl] at h; cases h
      | some d =>
          rw [hl] at h
          cases d with
          | leaf v => cases h
          | branch ces =>
              simp only [replaceAt, hl, subAt, lookupE_setK_self]
              exact ih ces a b h

theorem replaceAt_replaceAt : ∀ (p : List JStr) (es a b c : Entries),
    subAt es p = some a →
    replaceAt (replaceAt es p b) p c = replaceAt es p c := by
  intro p
  induction p with
  | nil => intro es a b c _; simp [replaceAt]
  | cons q rest ih =>
      intro es a b c h
      simp only [subAt] at h
      cases hl : lookupE es q with
      | none => rw [hl] at h; cases h
      | some d =>
          rw [hl] at h
          cases d with
          | leaf v => cases h
          | branch ces =>
              simp only [replaceAt, hl, lookupE_setK_self, ih ces a b c h]
              exact setK_setK es q _ _

theorem subAt_append : ∀ (p : List JStr) (es a : Entries) (q : List JStr),
    subAt es p = some a → subAt es (p ++ q) = subAt a q := by
  intro p
  induction p with
  | nil =>
      intro es a q h
      simp only [subAt, Option.some.injEq] at h
      subst h
      simp
  | cons x rest ih =>
      intro es a q h
      simp only [subAt] at h
      cases hl : lookupE es x with
      | none => rw [hl] at h; cases h
      | some d =>
          rw [hl] at h
          cases d with
          | leaf v => cases h
          | branch ces =>
              simp only [List.cons_append, subAt, hl]
              exact ih ces a q h

theorem replaceAt_append : ∀ (p : List JStr) (es a : Entries) (q : List JStr)
    (b : Entries), subAt es p = some a →
    replaceAt es (p ++ q) b = replaceAt es p (replaceAt a q b) := by
  intro p
  induction p with
  | nil =>
      intro es a q b h
      simp only [subAt, Option.some.injEq] at h
      subst h
      simp [replaceAt]
  | cons x rest ih =>
      intro es a q b h
      simp only [subAt] at h
      cases hl : lookupE es x with
      | none => rw [hl] at h; cases h
      | some d =>
          rw [hl] at h
          cases d with
          | leaf v => cases h
          | branch ces =>
              have h' : subAt ces rest = some a := h
              simp only [List.cons_append, replaceAt, hl, List.append_eq]
              rw [ih ces a q b h']

theorem setLeafAt_existing : ∀ (p : List JStr) (es a : Entries)
    (k v : JStr), subAt es p = some a →
    setLeafAt es p k v = replaceAt es p (setK a k (.leaf v)) := by
  intro p
  induction p with
  | nil =>
      intro es a k v h
      simp only [subAt, Option.some.injEq] at h
      subst h
      simp [setLeafAt, replaceAt]
  | cons x rest ih =>
      intro es a k v h
      simp only [subAt] at h
      cases hl : lookupE es x with
      | none => rw [hl] at h; cases h
      | some d =>
          rw [hl] at h
          cases d with
          | leaf w => cases h
          | branch ces =>
              simp only [setLeafAt, replaceAt, hl, ih ces a k v h]

theorem ensurePath_existing : ∀ (p : List JStr) (es a : Entries),
    subAt es p = some a → ensurePath es p = es := by
  intro p
  induction p with
  | nil => intro es a _; rfl
  | cons x rest ih =>
      intro es a h
      simp only [subAt] at h
      cases hl : lookupE es x with
      | none => rw [hl] at h; cases h
      | some d =>
          rw [hl] at h
          cases d with
          | leaf w => cases h
          | branch ces =>
              simp only [ensurePath, hl, ih ces a h]
              exact setK_lookup_self es x _ hl

theorem ensurePath_fresh : ∀ (p : List JStr) (es a : Entries) (k : JStr),
    subAt es p = some a → lookupE a k = none →
    ensurePath es (p ++ [k]) =
      replaceAt es p (a.app (.cons k (.branch .nil) .nil)) := by
  intro p
  induction p with
  | nil =>
      intro es a k h hk
      simp only [subAt, Option.some.injEq] at h
      subst h
      simp only [List.nil_append, ensurePath, hk, replaceAt]
      rw [setK_fresh es k _ hk]
  | cons x rest ih =>
      intro es a k h hk
      simp only [subAt] at h
      cases hl : lookupE es x with
      | none => rw [hl] at h; cases h
      | some d =>
          rw [hl] at h
          cases d with
          | leaf w => cases h
          | branch ces =>
              have h' : subAt ces rest = some a := h
              simp only [List.cons_append, ensurePath, replaceAt, hl,
                List.append_eq]
              rw [ih ces a k h' hk]

theorem kvsEntries_append (xs ys : List (JStr × JStr)) :
    kvsEntries (xs ++ ys) = (kvsEntries xs).app (kvsEntries ys) := by
  induction xs with
  | nil => simp [kvsEntries, Entries.app]
  | cons kv r ih => simp [kvsEntries, Entries.app, ih]

theorem applyKVs_existing :
    ∀ (kvs : List (JStr × JStr)) (es : Entries) (p : List JStr)
      (a : Entries),
      subAt es p = some a →
      (∀ kv ∈ kvs, lookupE a kv.1 = none) →
      kvs.Pairwise (fun kv kv' => kv.1 ≠ kv'.1) →
      applyKVs es p kvs = replaceAt es p (a.app (kvsEntries kvs)) := by
  intro kvs
  induction kvs with
  | nil =>
      intro es p a h _ _
      simp only [applyKVs, List.foldl_nil, kvsEntries, app_nil]
      exact (replaceAt_self p es a h).symm
  | cons kv r ih =>
      intro es p a h hfresh hpair
      obtain ⟨k, v⟩ := kv
      have hk : lookupE a k = none := hfresh (k, v) (List.mem_cons_self _ _)
      have hstep : setLeafAt es p k v =
          replaceAt es p (a.app (.cons k (.leaf v) .nil)) := by
        rw [setLeafAt_existing p es a k v h, setK_fresh a k _ hk]
      have hsub : subAt (replaceAt es p (a.app (.cons k (.leaf v) .nil))) p =
          some (a.app (.cons k (.leaf v) .nil)) :=
        subAt_replaceAt p es a _ h
      have hfresh2 : ∀ kv' ∈ r,
          lookupE (a.app (.cons k (.leaf v) .nil)) kv'.1 = none := by
        intro kv' hkv'
        rw [lookupE_app]
        have h1 : lookupE a kv'.1 = none :=
          hfresh kv' (List.mem_cons_of_mem _ hkv')
        have h2 : k ≠ kv'.1 := (List.pairwise_cons.mp hpair).1 kv' hkv'
        simp [h1, lookupE, h2]
      have hpair2 : r.Pairwise (fun kv kv' => kv.1 ≠ kv'.1) :=
        (List.pairwise_cons.mp hpair).2
      have := ih (replaceAt es p (a.app (.cons k (.leaf v) .nil))) p
        (a.app (.cons k (.leaf v) .nil)) hsub hfresh2 hpair2
      simp only [applyKVs, List.foldl_cons] at this ⊢
      rw [hstep, this,
        replaceAt_replaceAt p es a _ _ h, app_assoc]
      simp [kvsEntries, Entries.app]

theorem kvsEntries_directLeaves : ∀ es : Entries,
    kvsEntries (directLeaves es) = leafPart es := by
  intro es
  induction es using Entries.tailInduction with
  | hnil => rfl
  | hcons k n r ih =>
      cases n with
      | leaf v => simp [directLeaves, kvsEntries, leafPart, ih]
      | branch ces => simp [directLeaves, leafPart, ih]

theorem goodE_shape : ∀ (es : Entries) (b : Bool), goodE b es = true →
    (leafPart es).app (branchOnly es) = es ∧
      (b = true → leafPart es = .nil) := by
  intro es
  induction es using Entries.tailInduction with
  | hnil => intro b _; exact ⟨rfl, fun _ => rfl⟩
  | hcons k n r ih =>
      intro b hg
      cases n with
      | leaf v =>
          simp only [goodE, Bool.and_eq_true, Bool.not_eq_true'] at hg
          obtain ⟨⟨⟨⟨hb, _⟩, _⟩, _⟩, hr⟩ := hg
          subst hb
          have := ih false hr
          refine ⟨?_, fun hcontra => by cases hcontra⟩
          simp [leafPart, branchOnly, Entries.app, this.1]
      | branch ces =>
          simp only [goodE, Bool.and_eq_true] at hg
          obtain ⟨⟨⟨_, _⟩, _⟩, hr⟩ := hg
          have hshape := (ih true hr).1
          have hlp := (ih true hr).2 rfl
          rw [hlp, Entries.app] at hshape
          refine ⟨?_, fun _ => by simp [leafPart, hlp]⟩
          simp [leafPart, branchOnly, hlp, Entries.app, hshape]

theorem mem_directLeaves_lookup : ∀ (es : Entries) (k v : JStr),
    (k, v) ∈ directLeaves es → lookupE es k ≠ none := by
  intro es
  induction es using Entries.tailInduction with
  | hnil => intro k v h; simp [directLeaves] at h
  | hcons k0 n0 r ih =>
      intro k v h
      cases n0 with
      | leaf w =>
          simp only [directLeaves, List.mem_cons, Prod.mk.injEq] at h
          rcases h with ⟨hk, _⟩ | h
          · subst hk; simp [lookupE]
          · by_cases hk0 : k0 = k
            · simp [lookupE, hk0]
            · simp only [lookupE, hk0, if_false]
              exact ih k v h
      | branch ces =>
          simp only [directLeaves] at h
          by_cases hk0 : k0 = k
          · simp [lookupE, hk0]
          · simp only [lookupE, hk0, if_false]
            exact ih k v h

theorem directLeaves_pairwise : ∀ (es : Entries) (b : Bool),
    goodE b es = true →
    (directLeaves es).Pairwise (fun x y => x.1 ≠ y.1) := by
  intro es
  induction es using Entries.tailInduction with
  | hnil => intro b _; simp [directLeaves]
  | hcons k n r ih =>
      intro b hg
      cases n with
      | leaf v =>
          simp only [goodE, Bool.and_eq_true, decide_eq_true_eq] at hg
          obtain ⟨⟨⟨⟨_, _⟩, hnone⟩, _⟩, hr⟩ := hg
          simp only [directLeaves, List.pairwise_cons]
          refine ⟨?_, ih b hr⟩
          intro kv hkv he
          have hm : lookupE r kv.1 ≠ none :=
            mem_directLeaves_lookup r kv.1 kv.2 (by simpa using hkv)
          rw [← he] at hm
          exact hm hnone
      | branch ces =>
          simp only [goodE, Bool.and_eq_true] at hg
          exact ih true hg.2

theorem lookupE_branchOnly : ∀ (es : Entries) (k : JStr),
    lookupE (branchOnly es) k ≠ none → lookupE es k ≠ none := by
  intro es
  induction es using Entries.tailInduction with
  | hnil => intro k h; exact h
  | hcons k0 n0 r ih =>
      intro k h
      cases n0 with
      | leaf v =>
          simp only [branchOnly] at h
          by_cases hk0 : k0 = k
          · simp [lookupE, hk0]
          · simp only [lookupE, hk0, if_false]
            exact ih k h
      | branch ces =>
          by_cases hk0 : k0 = k
          · simp [lookupE, hk0]
          · simp only [branchOnly, lookupE, hk0, if_false] at h ⊢
            exact ih k h

theorem lookupE_leafPart : ∀ (es : Entries) (k : JStr),
    lookupE (leafPart es) k ≠ none → lookupE es k ≠ none := by
  intro es
  induction es using Entries.tailInduction with
  | hnil => intro k h; exact h
  | hcons k0 n0 r ih =>
      intro k h
      cases n0 with
      | leaf v =>
          by_cases hk0 : k0 = k
          · simp [lookupE, hk0]
          · simp only [leafPart, lookupE, hk0, if_false] at h ⊢
            exact ih k h
      | branch ces =>
          simp only [leafPart] at h
          by_cases hk0 : k0 = k
          · simp [lookupE, hk0]
          · simp only [lookupE, hk0, if_false]
            exact ih k h

theorem leafPart_fresh : ∀ (es : Entries) (b : Bool), goodE b es = true →
    ∀ k, lookupE (branchOnly es) k ≠ none →
      lookupE (leafPart es) k = none := by
  intro es
  induction es using Entries.tailInduction with
  | hnil => intro b _ k h; simp [branchOnly, lookupE] at h
  | hcons k0 n0 r ih =>
      intro b hg k h
      cases n0 with
      | leaf v =>
          simp only [goodE, Bool.and_eq_true, decide_eq_true_eq] at hg
          obtain ⟨⟨⟨⟨_, _⟩, hnone⟩, _⟩, hr⟩ := hg
          simp only [branchOnly] at h
          have hk0 : k0 ≠ k := by
            intro he
            subst he
            exact (lookupE_branchOnly r k0 h) hnone
          simp only [leafPart, lookupE, hk0, if_false]
          exact ih b hr k h
      | branch ces =>
          simp only [goodE, Bool.and_eq_true, decide_eq_true_eq] at hg
          obtain ⟨⟨⟨_, hnone⟩, _⟩, hr⟩ := hg
          simp only [leafPart]
          by_cases hk0 : k0 = k
          · subst hk0
            by_cases hlp : lookupE (leafPart r) k0 = none
            · exact hlp
            · exact absurd (lookupE_leafPart r k0 hlp) (by simp [hnone])
          · simp only [branchOnly, lookupE, hk0, if_false] at h
            exact ih true hr k h

theorem sproc_nonroot (a : Entries) (c : List JStr) (p : List JStr)
    (hp : p ≠ []) (kvs : List (JStr × JStr)) :
    sproc (a, c) (p, kvs) = (applyKVs (ensurePath a p) p kvs, p) := by
  cases p with
  | nil => exact absurd rfl hp
  | cons x xs => rfl

/-- The heart of the round trip: folding the serialized sections of a good
entry list below an existing path grafts exactly its subsections, in
order, after the entries already present there. -/
theorem sfold_sections : ∀ (es : Entries) (b : Bool), goodE b es = true →
    ∀ (acc : Entries) (p : List JStr) (a : Entries) (c0 : List JStr),
      subAt acc p = some a →
      (∀ k, lookupE (branchOnly es) k ≠ none → lookupE a k = none) →
      (List.foldl sproc (acc, c0) (sectionsOfEntries p es)).1 =
        replaceAt acc p (a.app (branchOnly es))
  | .nil => by
      intro b _ acc p a c0 hsub _
      simp only [sectionsOfEntries, List.foldl_nil, branchOnly, app_nil]
      exact (replaceAt_self p acc a hsub).symm
  | .cons k (.leaf v) r => by
      intro b hg acc p a c0 hsub hfresh
      simp only [goodE, Bool.and_eq_true] at hg
      have hr := hg.2
      simp only [sectionsOfEntries, sectionsOfNode, List.nil_append]
      have hres := sfold_sections r b hr acc p a c0 hsub (fun k' hk' =>
        hfresh k' (by simpa [branchOnly] using hk'))
      simpa [branchOnly] using hres
  | .cons k (.branch ces) r => by
      intro b hg acc p a c0 hsub hfresh
      simp only [goodE, Bool.and_eq_true, decide_eq_true_eq] at hg
      obtain ⟨⟨⟨hkey, hnone⟩, hces⟩, hr⟩ := hg
      have hk_fresh : lookupE a k = none := by
        refine hfresh k ?_
        simp [branchOnly, lookupE]
      have hens := ensurePath_fresh p acc a k hsub hk_fresh
      have hsub1 : subAt (replaceAt acc p
          (a.app (.cons k (.branch .nil) .nil))) p =
          some (a.app (.cons k (.branch .nil) .nil)) :=
        subAt_replaceAt p acc a _ hsub
      have hlookA1 : lookupE (a.app (.cons k (.branch .nil) .nil)) k =
          some (.branch .nil) := by
        rw [lookupE_app]
        simp [hk_fresh, lookupE]
      have hsub1k : subAt (replaceAt acc p
          (a.app (.cons k (.branch .nil) .nil))) (p ++ [k]) =
          some .nil := by
        rw [subAt_append p _ _ [k] hsub1]
        simp [subAt, hlookA1]
      have happly := applyKVs_existing (directLeaves ces)
        (replaceAt acc p (a.app (.cons k (.branch .nil) .nil))) (p ++ [k])
        .nil hsub1k (fun kv _ => rfl)
        (directLeaves_pairwise ces false hces)
      rw [kvsEntries_directLeaves ces] at happly
      have hsub2 : subAt (replaceAt
          (replaceAt acc p (a.app (.cons k (.branch .nil) .nil)))
          (p ++ [k]) (Entries.nil.app (leafPart ces))) (p ++ [k]) =
          some (Entries.nil.app (leafPart ces)) :=
        subAt_replaceAt (p ++ [k]) _ .nil _ hsub1k
      have hrec := sfold_sections ces false hces
        (replaceAt (replaceAt acc p (a.app (.cons k (.branch .nil) .nil)))
          (p ++ [k]) (Entries.nil.app (leafPart ces)))
        (p ++ [k]) (Entries.nil.app (leafPart ces)) (p ++ [k]) hsub2
        (fun k' hk' => leafPart_fresh ces false hces k' hk')
      -- collapse the nested replaceAt chain
      have hshape := (goodE_shape ces false hces).1
      have hcoll1 : replaceAt (replaceAt
          (replaceAt acc p (a.app (.cons k (.branch .nil) .nil)))
          (p ++ [k]) (Entries.nil.app (leafPart ces))) (p ++ [k])
          ((Entries.nil.app (leafPart ces)).app (branchOnly ces)) =
          replaceAt (replaceAt acc p (a.app (.cons k (.branch .nil) .nil)))
            (p ++ [k]) ces := by
        rw [replaceAt_replaceAt (p ++ [k]) _ .nil _ _ hsub1k]
        have hC : (Entries.nil.app (leafPart ces)).app (branchOnly ces) =
            ces := by
          simpa [Entries.app] using hshape
        rw [hC]
      have hcoll2 : replaceAt (replaceAt acc p
          (a.app (.cons k (.branch .nil) .nil))) (p ++ [k]) ces =
          replaceAt acc p (a.app (.cons k (.branch ces) .nil)) := by
        rw [replaceAt_append p _ _ [k] ces hsub1]
        rw [replaceAt_replaceAt p acc a _ _ hsub]
        congr 1
        show replaceAt (a.app (.cons k (.branch .nil) .nil)) [k] ces = _
        simp only [replaceAt, hlookA1]
        exact setK_app_fresh_last a k _ _ hk_fresh
      -- freshness for the remaining siblings
      have hfresh3 : ∀ k', lookupE (branchOnly r) k' ≠ none →
          lookupE (a.app (.cons k (.branch ces) .nil)) k' = none := by
        intro k' hk'
        have hk'r : lookupE r k' ≠ none := lookupE_branchOnly r k' hk'
        have hkne : k' ≠ k := by
          intro he; subst he; exact hk'r hnone
        have ha : lookupE a k' = none := by
          refine hfresh k' ?_
          have hkne2 : ¬(k = k') := fun he => hkne (Eq.symm he)
          simp [branchOnly, lookupE, hkne2, hk']
        have hkne2 : ¬(k = k') := fun he => hkne (Eq.symm he)
        rw [lookupE_app]
        simp [ha, lookupE, hkne2]
      -- assemble
      show (List.foldl sproc (acc, c0)
        ((sectionsOfNode (p ++ [k]) (.branch ces)) ++
          sectionsOfEntries p r)).1 = _
      rw [List.foldl_append]
      simp only [sectionsOfNode, List.foldl_cons]
      rw [sproc_nonroot _ _ _ (by simp) _, hens, happly]
      have hstate : List.foldl sproc
          (replaceAt (replaceAt acc p (a.app (.cons k (.branch .nil) .nil)))
            (p ++ [k]) (Entries.nil.app (leafPart ces)), p ++ [k])
          (sectionsOfEntries (p ++ [k]) ces) =
          ((List.foldl sproc
            (replaceAt (replaceAt acc p (a.app (.cons k (.branch .nil) .nil)))
              (p ++ [k]) (Entries.nil.app (leafPart ces)), p ++ [k])
            (sectionsOfEntries (p ++ [k]) ces)).1,
           (List.foldl sproc
            (replaceAt (replaceAt acc p (a.app (.cons k (.branch .nil) .nil)))
              (p ++ [k]) (Entries.nil.app (leafPart ces)), p ++ [k])
            (sectionsOfEntries (p ++ [k]) ces)).2) := rfl
      rw [hstate, hrec, hcoll1, hcoll2]
      have hsub3 : subAt (replaceAt acc p
          (a.app (.cons k (.branch ces) .nil))) p =
          some (a.app (.cons k (.branch ces) .nil)) :=
        subAt_replaceAt p acc a _ hsub
      have hres := sfold_sections r true hr
        (replaceAt acc p (a.app (.cons k (.branch ces) .nil))) p
        (a.app (.cons k (.branch ces) .nil))
        ((List.foldl sproc
          (replaceAt (replaceAt acc p (a.app (.cons k (.branch .nil) .nil)))
            (p ++ [k]) (Entries.nil.app (leafPart ces)), p ++ [k])
          (sectionsOfEntries (p ++ [k]) ces)).2) hsub3 hfresh3
      rw [hres, replaceAt_replaceAt p acc a _ _ hsub, app_assoc]
      simp [branchOnly, Entries.app]

theorem sfold_allSections (es : Entries) (hg : goodE false es = true) :
    (List.foldl sproc (Entries.nil, ([] : List JStr)) (allSections es)).1 =
      es := by
  simp only [allSections, List.foldl_cons]
  have happly := applyKVs_existing (directLeaves es) Entries.nil []
    Entries.nil rfl (fun kv _ => rfl) (directLeaves_pairwise es false hg)
  rw [kvsEntries_directLeaves es] at happly
  show (List.foldl sproc (applyKVs Entries.nil [] (directLeaves es), [])
      (sectionsOfEntries [] es)).1 = es
  rw [happly]
  show (List.foldl sproc (Entries.nil.app (leafPart es), ([] : List JStr))
      (sectionsOfEntries [] es)).1 = es
  have hfresh : ∀ k, lookupE (branchOnly es) k ≠ none →
      lookupE (Entries.nil.app (leafPart es)) k = none := by
    intro k hk
    show lookupE (leafPart es) k = none
    exact leafPart_fresh es false hg k hk
  have hmain := sfold_sections es false hg (Entries.nil.app (leafPart es))
    [] (Entries.nil.app (leafPart es)) [] rfl hfresh
  rw [hmain]
  show (Entries.nil.app (leafPart es)).app (branchOnly es) = es
  simpa [Entries.app] using (goodE_shape es false hg).1

theorem parseLine_kvLine (a : Entries) (c : List JStr) (k v : JStr)
    (hk0 : k ≠ []) (hkt : trim k = k) (hkb : '[' ∉ k) (hke : '=' ∉ k)
    (hvt : trim v = v) :
    parseLine (a, c) (kvLine k v) = (setLeafAt a c k v, c) := by
  obtain ⟨ch, k', hck⟩ : ∃ ch k', k = ch :: k' := by
    cases k with
    | nil => exact absurd rfl hk0
    | cons ch k' => exact ⟨ch, k', rfl⟩
  have hws : wsChar ch = false := head_not_ws_of_trim_eq hkt hck
  have hblank : isBlank (kvLine k v) = false := by
    subst hck
    simp [isBlank, kvLine, hws]
  have hch : ch ≠ '[' := by
    intro he
    exact hkb (by rw [hck, he]; exact List.mem_cons_self _ _)
  have hhc : headerContent (kvLine k v) = none := by
    subst hck
    simp [headerContent, kvLine, hch]
  have hbe : breakAtEq (kvLine k v) = some (k ++ [' '], ' ' :: v) := by
    have heq : kvLine k v = (k ++ [' ']) ++ '=' :: (' ' :: v) := by
      simp [kvLine]
    rw [heq]
    refine breakAtEq_append (' ' :: v) ?_
    intro hm
    rcases List.mem_append.mp hm with hm | hm
    · exact hke hm
    · simp at hm
  simp only [parseLine, hblank, Bool.false_eq_true, if_false, hhc, hbe,
    trim_key_space k hkt, trim_space_val v hvt]

theorem parseLine_headerLine (a : Entries) (c : List JStr) (p : List JStr)
    (hp : p ≠ []) (hpk : ∀ seg ∈ p, '.' ∉ seg) :
    parseLine (a, c) (headerLine p) = (ensurePath a p, p) := by
  have hblank : isBlank (headerLine p) = false := by
    simp [isBlank, headerLine, wsChar]
  simp only [parseLine, hblank, Bool.false_eq_true, if_false,
    headerContent_headerLine, jsSplit_joinWith '.' p hp hpk]

theorem foldl_parseLine_kvs :
    ∀ (kvs : List (JStr × JStr)) (a : Entries) (c : List JStr),
      (∀ kv ∈ kvs, kv.1 ≠ [] ∧ trim kv.1 = kv.1 ∧ '[' ∉ kv.1 ∧
        '=' ∉ kv.1 ∧ trim kv.2 = kv.2) →
      List.foldl parseLine (a, c)
        (kvs.map (fun kv => kvLine kv.1 kv.2)) = (applyKVs a c kvs, c) := by
  intro kvs
  induction kvs with
  | nil => intro a c _; simp [applyKVs]
  | cons kv rest ih =>
      intro a c hg
      obtain ⟨k, v⟩ := kv
      obtain ⟨h1, h2, h3, h4, h5⟩ := hg (k, v) (List.mem_cons_self _ _)
      simp only [List.map_cons, List.foldl_cons,
        parseLine_kvLine a c k v h1 h2 h3 h4 h5]
      rw [ih (setLeafAt a c k v) c
        (fun kv hkv => hg kv (List.mem_cons_of_mem _ hkv))]
      simp [applyKVs]

theorem foldl_parseLine_sections :
    ∀ (secs : List Sec) (st : ParseSt),
      (∀ s ∈ secs, SecGoodB s) →
      List.foldl parseLine st (secs.flatMap renderSec) =
        List.foldl sproc st secs := by
  intro secs
  induction secs with
  | nil => intro st _; simp
  | cons s rest ih =>
      intro st hg
      obtain ⟨a, c⟩ := st
      obtain ⟨hpath, hkvs⟩ := hg s (List.mem_cons_self _ _)
      have hrest : ∀ s ∈ rest, SecGoodB s :=
        fun s hs => hg s (List.mem_cons_of_mem _ hs)
      obtain ⟨p, kvs⟩ := s
      rw [List.flatMap_cons, List.foldl_append]
      cases p with
      | nil =>
          simp only [renderSec]
          rw [foldl_parseLine_kvs kvs a c hkvs]
          exact ih _ hrest
      | cons x ps =>
          simp only [renderSec, List.foldl_cons]
          rw [parseLine_headerLine a c (x :: ps) (by simp)
            (fun seg hs => (hpath seg hs).2)]
          rw [foldl_parseLine_kvs kvs (ensurePath a (x :: ps)) (x :: ps) hkvs]
          exact ih _ hrest

theorem goodKeyB_spec {k : JStr} (h : goodKeyB k = true) :
    k ≠ [] ∧ trim k = k ∧ '.' ∉ k ∧ '[' ∉ k ∧ '=' ∉ k := by
  simp only [goodKeyB, Bool.and_eq_true, decide_eq_true_eq] at h
  exact ⟨h.1.1.1.1.1.1, h.1.1.1.1.1.2, h.1.1.1.1.2, h.1.1.1.2, h.1.1.2⟩

theorem goodValB_spec {v : JStr} (h : goodValB v = true) : trim v = v := by
  simp only [goodValB, Bool.and_eq_true, decide_eq_true_eq] at h
  exact h.1.1

theorem directLeaves_good : ∀ (es : Entries) (b : Bool),
    goodE b es = true →
    ∀ kv ∈ directLeaves es, goodKeyB kv.1 = true ∧ goodValB kv.2 = true := by
  intro es
  induction es using Entries.tailInduction with
  | hnil => intro b _ kv hkv; simp [directLeaves] at hkv
  | hcons k n r ih =>
      intro b hg kv hkv
      cases n with
      | leaf v =>
          simp only [goodE, Bool.and_eq_true] at hg
          obtain ⟨⟨⟨⟨_, hkey⟩, _⟩, hval⟩, hr⟩ := hg
          simp only [directLeaves, List.mem_cons] at hkv
          rcases hkv with hkv | hkv
          · subst hkv; exact ⟨hkey, hval⟩
          · exact ih b hr kv hkv
      | branch ces =>
          simp only [goodE, Bool.and_eq_true] at hg
          simp only [directLeaves] at hkv
          exact ih true hg.2 kv hkv

theorem sections_good : ∀ (es : Entries) (b : Bool), goodE b es = true →
    ∀ (p : List JStr), (∀ seg ∈ p, seg ≠ [] ∧ '.' ∉ seg) →
    ∀ s ∈ sectionsOfEntries p es, SecGoodB s
  | .nil => by intro b _ p _ s hs; simp [sectionsOfEntries] at hs
  | .cons k (.leaf v) r => by
      intro b hg p hp s hs
      simp only [goodE, Bool.and_eq_true] at hg
      simp only [sectionsOfEntries, sectionsOfNode, List.nil_append] at hs
      exact sections_good r b hg.2 p hp s hs
  | .cons k (.branch ces) r => by
      intro b hg p hp s hs
      simp only [goodE, Bool.and_eq_true] at hg
      obtain ⟨⟨⟨hkey, _⟩, hces⟩, hr⟩ := hg
      obtain ⟨hk1, hk2, hk3, _, _⟩ := goodKeyB_spec hkey
      have hpk : ∀ seg ∈ p ++ [k], seg ≠ [] ∧ '.' ∉ seg := by
        intro seg hseg
        rcases List.mem_append.mp hseg with hseg | hseg
        · exact hp seg hseg
        · simp only [List.mem_singleton] at hseg
          subst hseg
          exact ⟨hk1, hk3⟩
      simp only [sectionsOfEntries, sectionsOfNode, List.cons_append,
        List.mem_cons, List.mem_append] at hs
      rcases hs with hs | hs | hs
      · subst hs
        refine ⟨hpk, ?_⟩
        intro kv hkv
        obtain ⟨hgk, hgv⟩ := directLeaves_good ces false hces kv hkv
        obtain ⟨h1, h2, _, h4, h5⟩ := goodKeyB_spec hgk
        exact ⟨h1, h2, h4, h5, goodValB_spec hgv⟩
      · exact sections_good ces false hces (p ++ [k]) hpk s hs
      · exact sections_good r true hr p hp s hs

theorem allSections_good (es : Entries) (hg : goodE false es = true) :
    ∀ s ∈ allSections es, SecGoodB s := by
  intro s hs
  simp only [allSections, List.mem_cons] at hs
  rcases hs with hs | hs
  · subst hs
    refine ⟨by simp, ?_⟩
    intro kv hkv
    obtain ⟨hgk, hgv⟩ := directLeaves_good es false hg kv hkv
    obtain ⟨h1, h2, _, h4, h5⟩ := goodKeyB_spec hgk
    exact ⟨h1, h2, h4, h5, goodValB_spec hgv⟩
  · exact sections_good es false hg [] (by simp) s hs

/-! ### Claim C1 -/

/-- C1 counterexample: the tree built by `addLibrary('foo','static')`
followed by `addDependency` on the `library` section does not survive a
round trip.  In memory, `library` holds the subsection `foo` *then* the
`dependencies` value (insertion order); the serializer emits a section's
values before its subsections, so re-parsing yields `dependencies` before
`foo` — same sections, same keys, same values, different ordering. -/
theorem C1_counterexample :
    (addLibrary rtStore0 (some (js "foo")) (some (js "static")) true []).1 =
        .success ∧
    (addDependency rtStore1 (js "library") [] (js "d")).1 = .added ∧
    rtStore2.text = iniStringify rtStore2.tree ∧
    iniParse rtStore2.text ≠ rtStore2.tree := by decide

/-- C1 (amended): the round trip holds for every tree in which all keys
are non-empty, trim-stable and free of `.`, `[`, `=` and line breaks, all
values are trim-stable and free of line breaks, keys are unique within
each object, and each object's string values precede its subsections —
re-parsing the serialized text reproduces the tree exactly, ordering
included.  (Modelled from the spec: serializer and parser follow §6's
line-oriented bracketed-header format.) -/
theorem C1_round_trip (es : Entries) (hg : goodE false es = true) :
    iniParse (iniStringify es) = es := by
  unfold iniParse iniStringify
  rw [foldl_parseLine_sections (allSections es) (Entries.nil, [])
    (allSections_good es hg)]
  exact sfold_allSections es hg

/-- C1 witness: the round trip evaluated on the demo tree. -/
theorem C1_round_trip_witness : iniParse (iniStringify demoLib) = demoLib :=
  C1_round_trip demoLib (by decide)

/-! ### Claim C2 -/

theorem count_joinWith (sep : Char) :
    ∀ ps : List JStr, ps ≠ [] → (∀ seg ∈ ps, sep ∉ seg) →
      List.count sep (joinWith sep ps) + 1 = ps.length := by
  intro ps
  induction ps with
  | nil => intro h; exact absurd rfl h
  | cons x t ih =>
      intro _ hfree
      match t with
      | [] =>
          simp [joinWith, List.count_eq_zero.mpr
            (hfree x (List.mem_cons_self _ _))]
      | y :: t' =>
          have hx : sep ∉ x := hfree x (List.mem_cons_self _ _)
          have ht := ih (by simp)
            (fun z hz => hfree z (List.mem_cons_of_mem _ hz))
          have hcnt : List.count sep (x ++ sep :: joinWith sep (y :: t')) =
              List.count sep (joinWith sep (y :: t')) + 1 := by
            simp [List.count_append, List.count_cons,
              List.count_eq_zero.mpr hx]
          simp only [joinWith, List.length_cons] at ht ⊢
          rw [hcnt]
          omega

theorem mem_joinWith (sep : Char) (c : Char) :
    ∀ ps : List JStr, c ∈ joinWith sep ps →
      c = sep ∨ ∃ x ∈ ps, c ∈ x := by
  intro ps
  induction ps with
  | nil => intro h; simp [joinWith] at h
  | cons x t ih =>
      intro h
      match t with
      | [] =>
          right
          exact ⟨x, List.mem_cons_self _ _, by simpa [joinWith] using h⟩
      | y :: t' =>
          simp only [joinWith, List.mem_append, List.mem_cons] at h
          rcases h with h | h | h
          · exact Or.inr ⟨x, List.mem_cons_self _ _, h⟩
          · exact Or.inl h
          · rcases ih h with h | ⟨z, hz, hcz⟩
            · exact Or.inl h
            · exact Or.inr ⟨z, List.mem_cons_of_mem _ hz, hcz⟩

theorem sections_path_ne_nil : ∀ (es : Entries) (p : List JStr) (s : Sec),
    s ∈ sectionsOfEntries p es → s.1 ≠ []
  | .nil => by intro p s hs; simp [sectionsOfEntries] at hs
  | .cons k (.leaf v) r => by
      intro p s hs
      simp only [sectionsOfEntries, sectionsOfNode, List.nil_append] at hs
      exact sections_path_ne_nil r p s hs
  | .cons k (.branch ces) r => by
      intro p s hs
      simp only [sectionsOfEntries, sectionsOfNode, List.cons_append,
        List.mem_cons, List.mem_append] at hs
      rcases hs with hs | hs | hs
      · subst hs; simp
      · exact sections_path_ne_nil ces (p ++ [k]) s hs
      · exact sections_path_ne_nil r p s hs

theorem headerLine_mem_render (secs : List Sec) (p : List JStr)
    (kvs : List (JStr × JStr)) (hmem : (p, kvs) ∈ secs) (hp : p ≠ []) :
    headerLine p ∈ secs.flatMap renderSec := by
  rw [List.mem_flatMap]
  refine ⟨(p, kvs), hmem, ?_⟩
  cases p with
  | nil => exact absurd rfl hp
  | cons x ps => simp [renderSec]

/-- C2: the serializer writes every compound section as a literal
bracketed header with exactly one unescaped `.` per nesting level and no
backslash escaping of the separator — for every section of any tree
whose key segments along the section path are dot-free and
backslash-free, the emitted line is `[seg1.….segN]`, it occurs in the
output, it contains exactly N−1 dots, and it contains no backslash.
(Modelled from the spec: the serializer follows §6's format.) -/
theorem C2_literal_headers (es : Entries) (p : List JStr)
    (kvs : List (JStr × JStr))
    (hmem : (p, kvs) ∈ sectionsOfEntries [] es)
    (hdotfree : ∀ seg ∈ p, '.' ∉ seg)
    (hbs : ∀ seg ∈ p, '\\' ∉ seg) :
    headerLine p ∈ iniStringify es ∧
    List.count '.' (headerLine p) + 1 = p.length ∧
    '\\' ∉ headerLine p := by
  have hp : p ≠ [] := sections_path_ne_nil es [] (p, kvs) hmem
  refine ⟨?_, ?_, ?_⟩
  · unfold iniStringify
    exact headerLine_mem_render (allSections es) p kvs
      (by simp [allSections, hmem]) hp
  · have hj := count_joinWith '.' p hp hdotfree
    have hhc : List.count '.' (headerLine p) =
        List.count '.' (joinWith '.' p) := by
      simp [headerLine, List.count_append, List.count_cons]
    omega
  · intro hmem2
    simp only [headerLine, List.mem_cons, List.mem_append,
      List.mem_singleton] at hmem2
    rcases hmem2 with (h | h) | h
    · exact absurd h (by decide)
    · rcases mem_joinWith '.' _ p h with h | ⟨x, hx, hcx⟩
      · exact absurd h (by decide)
      · exact hbs x hx hcx
    · exact absurd h (by decide)

/-- C2 witness: the tree reached by `addLibrary('foo','static')` then
`addDependency` on the `library` node (whose `dependencies` value sits
after the `foo` subsection) emits the literal header `[library.foo]`
with one dot and no backslash. -/
theorem C2_literal_headers_witness :
    headerLine [js "library", js "foo"] ∈ iniStringify rtStore2.tree ∧
    List.count '.' (headerLine [js "library", js "foo"]) + 1 = 2 ∧
    '\\' ∉ headerLine [js "library", js "foo"] :=
  C2_literal_headers rtStore2.tree [js "library", js "foo"]
    (directLeaves fooEntries) (by decide) (by decide) (by decide)

end Miracle
